import Mathlib

set_option maxRecDepth 8000

/-!
Verification development for the hackathon-monitoring dashboard front-end.

The JavaScript sources are embedded shallowly:
* the chat controller (`handleSend`, `addPredefinedQueries`, the send-button,
  Enter-key and quick-reply event handlers) becomes a step function on an
  explicit `ChatState`;
* the dashboard refresh pipeline (`fetchStats`, `fetchInsights`,
  `fetchRecentMessages`, `refreshAllData`) becomes pure update functions on a
  `Dom` record plus an event trace for one refresh cycle;
* the auto-refresh scheduler (`startAutoRefresh`, `stopAutoRefresh`, the
  `visibilitychange` listener) becomes a step function on a timer state;
* the string-rewriting render pipeline (mention masking, keyword highlighting,
  question-mark highlighting, capitalization) is modelled character-exactly on
  `List Char`, including the word-boundary and case-insensitivity semantics of
  the regular expressions used by the code.

JavaScript machine details that the model fixes explicitly: regex `\w` is
ASCII `[A-Za-z0-9_]`; the `i` flag is ASCII case folding (the texts and
keywords involved are ASCII); a disabled form control receives no click or
keypress events, while assigning `.value` to a disabled input still works.
-/

namespace SlackDash

/-! ## Chat session controller (chat script in `part_000`)

State of the chat page: the input field value, the disabled flags of the
input and of the send button, the transcript of rendered turns, the number of
"Thinking..." loading indicators currently in the DOM, and the number of
`/api/query` fetches currently in flight. -/

inductive Speaker
  | user
  | bot
deriving DecidableEq, Repr

structure ChatTurn where
  speaker : Speaker
  text : String
deriving DecidableEq, Repr

structure ChatState where
  inputValue : String
  inputDisabled : Bool
  sendDisabled : Bool
  transcript : List ChatTurn
  loadingCount : Nat
  inFlight : Nat
deriving DecidableEq, Repr

/-- JavaScript `String.prototype.trim` on the character list: drop whitespace
from both ends. -/
def jsTrimL (l : List Char) : List Char :=
  ((l.dropWhile Char.isWhitespace).reverse.dropWhile Char.isWhitespace).reverse

def jsTrim (s : String) : String :=
  String.mk (jsTrimL s.toList)

/-- The synchronous prefix of `handleSend` up to and including the start of the
`getAIResponse` fetch: trim the input; if empty return without any effect;
otherwise append the user turn, clear and disable the controls, show the
loading indicator and start the query fetch (`inFlight` grows by one). -/
def handleSendStart (s : ChatState) : ChatState :=
  let text := jsTrim s.inputValue
  if text = "" then s
  else
    { inputValue := ""
      inputDisabled := true
      sendDisabled := true
      transcript := s.transcript ++ [⟨Speaker.user, text⟩]
      loadingCount := s.loadingCount + 1
      inFlight := s.inFlight + 1 }

/-- External events of the chat page.  `clickSend` is a click on the send
button, `pressEnter` a keypress on the input, `quickReply` a click on one of
the predefined-query buttons, `resolveReply` the resumption of a pending
`getAIResponse` await with the reply text (`getAIResponse` catches all its
errors and resolves with a fallback string, so every pending fetch resumes
this way). -/
inductive ChatEv
  | clickSend
  | pressEnter
  | quickReply (q : String)
  | resolveReply (reply : String)

/-- One step of the chat controller.  A disabled button dispatches no click
and a disabled input dispatches no keypress, so those events are no-ops while
disabled.  A quick-reply button is never disabled: its handler assigns
`userInput.value = query` (programmatic assignment works on a disabled input)
and calls `handleSend()` directly.  `resolveReply` is the continuation of
`handleSend` after the await: hide the loading indicator (remove one if any is
present), append the bot turn, and in the `finally` block re-enable both
controls. -/
def chatStep (s : ChatState) : ChatEv → ChatState
  | .clickSend => if s.sendDisabled then s else handleSendStart s
  | .pressEnter => if s.inputDisabled then s else handleSendStart s
  | .quickReply q => handleSendStart { s with inputValue := q }
  | .resolveReply r =>
    { s with
      loadingCount := s.loadingCount - 1
      transcript := s.transcript ++ [⟨Speaker.bot, r⟩]
      inputDisabled := false
      sendDisabled := false
      inFlight := s.inFlight - 1 }

/-- Initial chat state after `DOMContentLoaded`. -/
def chatInit : ChatState :=
  { inputValue := ""
    inputDisabled := false
    sendDisabled := false
    transcript := []
    loadingCount := 0
    inFlight := 0 }

/-! ## Auto-refresh scheduler (dashboard script)

`autoRefreshInterval` models the armed repeating timer: `some p` is a live
`setInterval` with period `p` milliseconds, `none` means no live timer (the
code's handle variable may keep a stale id after `clearInterval`, but the
timer itself is dead, which is what the state records). -/

structure Sched where
  autoRefreshInterval : Option Nat
deriving DecidableEq, Repr

inductive SchedAct
  | cycle
deriving DecidableEq, Repr

/-- Scheduler events: initial page load, the `visibilitychange` listener firing
with the page hidden or visible, a tick of the armed interval timer, a click
on the refresh button, and `beforeunload`. -/
inductive SchedEv
  | pageLoad
  | hidden
  | visible
  | tick
  | manualClick
  | unload

/-- One scheduler step, returning the new timer state and the fetch cycles
started by the event.  On load: `refreshAllData()` then `startAutoRefresh()`.
Hidden: `stopAutoRefresh()` clears the timer and starts nothing.  Visible:
`startAutoRefresh()` re-arms a 30000 ms interval and `refreshAllData()` runs
one immediate cycle.  A tick only exists while the timer is armed; a tick of
an unarmed timer is a non-event.  A manual click starts a cycle without
touching the timer; unload clears the timer. -/
def schedStep (s : Sched) : SchedEv → Sched × List SchedAct
  | .pageLoad => (⟨some 30000⟩, [.cycle])
  | .hidden => (⟨none⟩, [])
  | .visible => (⟨some 30000⟩, [.cycle])
  | .tick => (s, if s.autoRefreshInterval.isSome then [.cycle] else [])
  | .manualClick => (s, [.cycle])
  | .unload => (⟨none⟩, [])

/-! ## The message text render pipeline (`fetchRecentMessages`)

`fetchRecentMessages` rewrites each message text through five sequential
string-replacement passes: user-mention masking, problem-keyword highlighting,
question-keyword highlighting, question-mark highlighting, and first-character
capitalization.  The passes are modelled character-exactly on `List Char`. -/

/-- Regex `\w`: ASCII letters, digits and underscore. -/
def isWordChar (c : Char) : Bool :=
  c.isAlphanum || c = '_'

/-- Case canonicalization performed by the regex `i` flag on ASCII input:
upper-case letters fold to lower case, everything else is unchanged. -/
def lc (c : Char) : Char :=
  if c.isUpper then Char.ofNat (c.toNat + 32) else c

def lcL (l : List Char) : List Char :=
  l.map lc

/-- Try to read the keyword `kw` (case-insensitively) at the front of `s`;
on success return the matched characters in their original case together with
the remainder of `s`. -/
def stripCI : List Char → List Char → Option (List Char × List Char)
  | [], s => some ([], s)
  | _ :: _, [] => none
  | k :: ks, c :: cs =>
    if lc c = lc k then (stripCI ks cs).map (fun p => (c :: p.1, p.2)) else none

/-- The `\b` assertion to the left of a match: the previous scanned character
(if any) is not a word character. -/
def prevOk : Option Char → Bool
  | none => true
  | some c => !isWordChar c

/-- The `\b` assertion to the right of a match: the next character (if any) is
not a word character. -/
def nextOk : List Char → Bool
  | [] => true
  | d :: _ => !isWordChar d

/-- Does the regex `\b(k ks)\b` (flags `gi`) match at the current scan
position, given the previously scanned character `p`? -/
def matchOK (k : Char) (ks : List Char) (p : Option Char) (s : List Char) : Bool :=
  prevOk p &&
    match stripCI (k :: ks) s with
    | some (_, r) => nextOk r
    | none => false

/-- Global regex replacement `text.replace(/\b(kw)\b/gi, pre + "$1" + post)`
as a left-to-right scan.  `n` counts matched characters still to be skipped
(they were already emitted inside the replacement), `p` is the previously
scanned character for the `\b` test.  On a match the replacement emits `pre`,
the matched text in its original case (`$1`), and `post`, then scanning
resumes after the match. -/
def hlS (k : Char) (ks pre post : List Char) : Nat → Option Char → List Char → List Char
  | _, _, [] => []
  | n + 1, _, c :: cs => hlS k ks pre post n (some c) cs
  | 0, p, c :: cs =>
    if matchOK k ks p (c :: cs) then
      pre ++ (c :: List.take ks.length cs) ++ post ++ hlS k ks pre post ks.length (some c) cs
    else
      c :: hlS k ks pre post 0 (some c) cs

/-- One keyword-highlighting pass over a whole string.  (The keyword lists in
the code are all non-empty; the empty-keyword case is unreachable and mapped
to the identity.) -/
def hlRun (kw pre post s : List Char) : List Char :=
  match kw with
  | [] => s
  | k :: ks => hlS k ks pre post 0 none s

/-- `keywords.forEach(keyword => text = text.replace(...))`: fold the single
pass over the keyword list in array order. -/
def hlPass (kws : List (List Char)) (pre post t : List Char) : List Char :=
  kws.foldl (fun s kw => hlRun kw pre post s) t

def problemKeywords : List (List Char) :=
  ["problem".toList, "issue".toList, "error".toList, "bug".toList, "stuck".toList,
   "help".toList, "broken".toList, "failed".toList, "trouble".toList]

def questionKeywords : List (List Char) :=
  ["how".toList, "what".toList, "where".toList, "when".toList, "why".toList,
   "can".toList, "could".toList, "would".toList, "should".toList]

def dangerOpen : List Char := "<span class=\"text-danger fw-bold\">".toList

def infoOpen : List Char := "<span class=\"text-info fw-bold\">".toList

def spanClose : List Char := "</span>".toList

/-- `text.replace(/\?/g, '<span class="text-info fw-bold">?</span>')`. -/
def qmPass : List Char → List Char
  | [] => []
  | c :: cs => (if c = '?' then infoOpen ++ ['?'] ++ spanClose else [c]) ++ qmPass cs

/-- A character allowed inside the mention id: regex `[A-Z0-9]`. -/
def isMentionChar (c : Char) : Bool :=
  c.isUpper || c.isDigit

/-- `id.slice(-4)`: the last four characters (the whole string if shorter). -/
def sliceLast4 (l : List Char) : List Char :=
  l.drop (l.length - 4)

/-- Try to match `/<@([A-Z0-9]+)>/` at the front of `s`; on success return the
captured id and the total matched length.  `[A-Z0-9]+` is greedy and a
backtracked shorter run would end at a mention character, never at `>`, so the
match succeeds exactly when the maximal run is followed by `>`. -/
def tryMention : List Char → Option (List Char × Nat)
  | '<' :: '@' :: rest =>
    let id := rest.takeWhile isMentionChar
    if id ≠ [] then
      match rest.drop id.length with
      | '>' :: _ => some (id, id.length + 3)
      | _ => none
    else none
  | _ => none

/-- The replacement emitted for a masked mention:
`<span class="badge bg-primary">@User ` + last four id characters + `</span>`. -/
def mentionBadge (id : List Char) : List Char :=
  "<span class=\"badge bg-primary\">@User ".toList ++ sliceLast4 id ++ "</span>".toList

/-- `text.replace(/<@([A-Z0-9]+)>/g, ...)`: left-to-right scan; `n` counts
matched characters still to be dropped (the replacement was already emitted). -/
def mmS : Nat → List Char → List Char
  | _, [] => []
  | n + 1, _ :: cs => mmS n cs
  | 0, c :: cs =>
    match tryMention (c :: cs) with
    | some (id, len) => mentionBadge id ++ mmS (len - 1) cs
    | none => c :: mmS 0 cs

def maskMentions (t : List Char) : List Char :=
  mmS 0 t

/-- `if (text && text.length > 0) text = text.charAt(0).toUpperCase() + text.slice(1)`:
upper-case the first character of the string, whatever it is. -/
def capFirst : List Char → List Char
  | [] => []
  | c :: cs => c.toUpper :: cs

/-- The three highlight passes of `fetchRecentMessages` in source order:
problem keywords, then question keywords, then question marks, each operating
on the cumulative output of the prior pass. -/
def highlightPasses (t : List Char) : List Char :=
  qmPass (hlPass questionKeywords infoOpen spanClose
    (hlPass problemKeywords dangerOpen spanClose t))

/-- The full markup pipeline applied to a message text before capitalization:
mention masking followed by the three highlight passes. -/
def markupOut (t : List Char) : List Char :=
  highlightPasses (maskMentions t)

/-- The rendered message text: all markup insertion, then the capitalization
transform. -/
def renderText (t : List Char) : List Char :=
  capFirst (markupOut t)

def renderTextS (s : String) : String :=
  String.mk (renderText s.toList)

/-- Modelled from the spec: "first visible character of rendered message text"
— the first character after skipping any leading markup tags (a tag being a
`<...>` bracketed run).  The code does not compute this; it is defined here
only to state what the claim asserts about the capitalization transform. -/
def firstLiteralGo : Nat → List Char → Option Char
  | 0, _ => none
  | _ + 1, [] => none
  | fuel + 1, c :: cs =>
    if c = '<' then firstLiteralGo fuel ((cs.dropWhile (fun d => !(d = '>'))).drop 1)
    else some c

def firstLiteral (l : List Char) : Option Char :=
  firstLiteralGo l.length l

/-! ## Dashboard DOM state and the three sub-fetch updates

One record field per DOM element id written by the dashboard script.  Note
that `fetchStats` and `fetchInsights` both write the elements
`questionsCount` and `problemsCount`. -/

structure Dom where
  lastUpdate : String
  totalMessages : String
  uniqueUsers : String
  questionsCount : String
  problemsCount : String
  problemsInsight : String
  questionsInsight : String
  trendingInsight : String
  trendsCount : String
  recentMessages : String
  btnLabel : String
  btnDisabled : Bool
deriving DecidableEq, Repr

/-- The failure modes a sub-fetch can hit before its success writes: a non-2xx
response (the `!response.ok` throw), a network-level rejection of `fetch`, or
a body that fails JSON parsing.  All are caught by the same `catch`. -/
inductive FetchFail
  | httpError (status : Nat)
  | networkThrow
  | parseError
deriving DecidableEq, Repr

/-- Outcome of one sub-fetch attempt. -/
inductive FetchOutcome (α : Type)
  | ok (val : α)
  | fail (e : FetchFail)

/-- Parsed `/api/stats` body; `none` models an absent or `null` field. -/
structure StatsJson where
  total_messages : Option Nat
  unique_users : Option Nat
  questions_count : Option Nat
  problems_count : Option Nat
deriving DecidableEq

/-- JavaScript `x || 0` on a numeric field: absent/null gives 0 (and `0 || 0`
is also 0, so a present value is always returned). -/
def jsOrZero : Option Nat → Nat
  | none => 0
  | some n => n

/-- JavaScript `x || d` on a string field: absent, null or empty gives the
default. -/
def jsOrStr : Option String → String → String
  | none, d => d
  | some s, d => if s = "" then d else s

/-- `fetchStats`: on success write the four stat counters; in the `catch`
write the literal "Error" into all four. -/
def statsUpdate (o : FetchOutcome StatsJson) (d : Dom) : Dom :=
  match o with
  | .ok stats =>
    { d with
      totalMessages := toString (jsOrZero stats.total_messages)
      uniqueUsers := toString (jsOrZero stats.unique_users)
      questionsCount := toString (jsOrZero stats.questions_count)
      problemsCount := toString (jsOrZero stats.problems_count) }
  | .fail _ =>
    { d with
      totalMessages := "Error"
      uniqueUsers := "Error"
      questionsCount := "Error"
      problemsCount := "Error" }

/-! ### Insight text formatting (`fetchInsights`) -/

def strongOpen : List Char := "<strong>".toList

def strongClose : List Char := "</strong>".toList

/-- Regex `.` (no `s` flag): any character but a line terminator. -/
def notNl (c : Char) : Bool :=
  !(c = '\n' || c = '\r')

/-- For `/\*\*(.*?)\*\*/`: given the characters after an opening `**`, find
the lazy content and the remainder after the closing `**`. -/
def findBold : List Char → Option (List Char × List Char)
  | [] => none
  | '*' :: '*' :: rest => some ([], rest)
  | c :: cs =>
    if notNl c then (findBold cs).map (fun p => (c :: p.1, p.2)) else none

/-- `text.replace(/\*\*(.*?)\*\*/g, '<strong>$1</strong>')`. -/
def emphS : Nat → List Char → List Char
  | _, [] => []
  | n + 1, _ :: cs => emphS n cs
  | 0, '*' :: '*' :: rest =>
    match findBold rest with
    | some (content, _) =>
      strongOpen ++ content ++ strongClose ++ emphS (1 + content.length + 2) ('*' :: rest)
    | none => '*' :: emphS 0 ('*' :: rest)
  | 0, c :: cs => c :: emphS 0 cs

def emphasize (t : List Char) : List Char :=
  emphS 0 t

/-- One attempt of `/\d+\./` at the current position: a maximal digit run
followed by a dot (a backtracked shorter run ends at a digit, never at the
dot, so only the maximal run can succeed); returns the matched length. -/
def tryEnum (s : List Char) : Option Nat :=
  let ds := s.takeWhile Char.isDigit
  if ds = [] then none
  else
    match s.drop ds.length with
    | '.' :: _ => some (ds.length + 1)
    | _ => none

/-- `(text.match(/\d+\./g) || []).length`. -/
def enumS : Nat → List Char → Nat
  | _, [] => 0
  | n + 1, _ :: cs => enumS n cs
  | 0, c :: cs =>
    match tryEnum (c :: cs) with
    | some len => 1 + enumS (len - 1) cs
    | none => enumS 0 cs

def countEnum (t : List Char) : Nat :=
  enumS 0 t

def bullLit : List Char := "&bull;".toList

/-- `(text.match(/&bull;/g) || []).length`. -/
def bullS : Nat → List Char → Nat
  | _, [] => 0
  | n + 1, _ :: cs => bullS n cs
  | 0, c :: cs =>
    if bullLit.isPrefixOf (c :: cs) then 1 + bullS (bullLit.length - 1) cs
    else bullS 0 cs

def countBull (t : List Char) : Nat :=
  bullS 0 t

/-- For `/<strong>.*?:<\/strong>/`: after the literal `<strong>`, lazily scan
for `:ever</strong>`; returns the length consumed from that point. -/
def findStrongEnd : List Char → Option Nat
  | [] => none
  | c :: cs =>
    if (':' :: strongClose).isPrefixOf (c :: cs) then some (1 + strongClose.length)
    else if notNl c then (findStrongEnd cs).map (· + 1) else none

/-- `(text.match(/<strong>.*?:<\/strong>/g) || []).length`. -/
def strongS : Nat → List Char → Nat
  | _, [] => 0
  | n + 1, _ :: cs => strongS n cs
  | 0, c :: cs =>
    if strongOpen.isPrefixOf (c :: cs) then
      match findStrongEnd ((c :: cs).drop strongOpen.length) with
      | some m => 1 + strongS (strongOpen.length + m - 1) cs
      | none => strongS 0 cs
    else strongS 0 cs

def countStrong (t : List Char) : Nat :=
  strongS 0 t

/-- Parsed `/api/insights` body. -/
structure InsightsJson where
  problems : Option String
  questions : Option String
  trending : Option String
deriving DecidableEq

/-- `fetchInsights`: on success default the three texts, convert `**bold**`
markers to `<strong>`, write the three insight panels, and write the three
count badges computed from structural markers of the converted texts (two of
those badges share their elements with `fetchStats`).  In the `catch` write
the error sentence into the three insight panels only. -/
def insightsUpdate (o : FetchOutcome InsightsJson) (d : Dom) : Dom :=
  match o with
  | .ok ins =>
    let problemsText := emphasize (jsOrStr ins.problems "No problems detected recently.").toList
    let questionsText := emphasize (jsOrStr ins.questions "No questions found recently.").toList
    let trendingText := emphasize (jsOrStr ins.trending "No trending topics identified.").toList
    { d with
      problemsInsight := String.mk problemsText
      questionsInsight := String.mk questionsText
      trendingInsight := String.mk trendingText
      problemsCount := toString (countEnum problemsText)
      questionsCount := toString (countBull questionsText)
      trendsCount := toString (countStrong trendingText) }
  | .fail _ =>
    { d with
      problemsInsight := "Error loading insights."
      questionsInsight := "Error loading insights."
      trendingInsight := "Error loading insights." }

/-! ### Recent messages (`fetchRecentMessages`) -/

/-- One element of the `/api/messages` response array; `none` models an
absent or `null` field. -/
structure MsgJson where
  user : Option String
  text : Option String
  ts : Option String
deriving DecidableEq

/-- Parsed `/api/messages` body. -/
structure MessagesJson where
  messages : Option (List MsgJson)
deriving DecidableEq

/-- The HTML block built for one message.  `fmtTime` stands for
`new Date(parseFloat(ts) * 1000).toLocaleTimeString()`, whose output depends
on the runtime locale and clock; it is a parameter of the model. -/
def renderMsg (fmtTime : Option String → String) (m : MsgJson) : String :=
  let user := jsOrStr m.user "Unknown"
  let text := jsOrStr m.text ""
  "\n          <div class=\"border-bottom pb-2 mb-2\">\n            <small class=\"text-muted\">["
    ++ fmtTime m.ts ++ "] <strong>User " ++ String.mk (sliceLast4 user.toList)
    ++ ":</strong></small>\n            <p class=\"mb-1\">" ++ renderTextS text
    ++ "</p>\n          </div>\n        "

def noMessagesHtml : String :=
  "<p class=\"text-muted\">No recent messages available.</p>"

def messagesErrorHtml : String :=
  "<p class=\"text-danger\">Error loading messages.</p>"

/-- `fetchRecentMessages`: on success, default the list with `data.messages
|| []`; if it is empty replace the region with the placeholder, otherwise
replace it with the joined message blocks.  In the `catch` replace it with the
error sentence.  Every path overwrites `recentMessages` wholesale. -/
def messagesUpdate (fmtTime : Option String → String)
    (o : FetchOutcome MessagesJson) (d : Dom) : Dom :=
  match o with
  | .ok data =>
    let messages := data.messages.getD []
    if messages.length = 0 then { d with recentMessages := noMessagesHtml }
    else { d with recentMessages := String.join (messages.map (renderMsg fmtTime)) }
  | .fail _ => { d with recentMessages := messagesErrorHtml }

/-! ## One refresh cycle (`refreshAllData`) -/

/-- A JavaScript exception escaping from one of the awaited sub-promises
(which would make `Promise.all` reject). -/
inductive JsError
  | thrown
deriving DecidableEq, Repr

/-- The `fetchStats()` promise: the whole body sits in `try`/`catch` and the
`catch` handles the error without rethrowing, so the promise always resolves,
carrying the DOM update it performed. -/
def fetchStatsJS (o : FetchOutcome StatsJson) : Except JsError (Dom → Dom) :=
  Except.ok (statsUpdate o)

/-- The `fetchInsights()` promise; as for `fetchStats`, it always resolves. -/
def fetchInsightsJS (o : FetchOutcome InsightsJson) : Except JsError (Dom → Dom) :=
  Except.ok (insightsUpdate o)

/-- The `fetchRecentMessages()` promise; as for `fetchStats`, it always
resolves. -/
def fetchMessagesJS (fmtTime : Option String → String)
    (o : FetchOutcome MessagesJson) : Except JsError (Dom → Dom) :=
  Except.ok (messagesUpdate fmtTime o)

/-- `Promise.all` over the three sub-promises: rejects as soon as any of the
three rejects, resolves with all three otherwise. -/
def promiseAll3 {α β γ : Type} :
    Except JsError α → Except JsError β → Except JsError γ → Except JsError (α × β × γ)
  | .error e, _, _ => .error e
  | .ok _, .error e, _ => .error e
  | .ok _, .ok _, .error e => .error e
  | .ok a, .ok b, .ok c => .ok (a, b, c)

/-- The atomic DOM effects of one refresh cycle, in execution order:
the timestamp write, a refresh-button write (label and disabled flag), or the
completion of one sub-fetch applying that sub-fetch's DOM update. -/
inductive SubId
  | stats
  | insights
  | msgs
deriving DecidableEq, Repr

inductive RefreshEv
  | stamp (now : String)
  | setBtn (label : String) (disabled : Bool)
  | sub (i : SubId)
deriving DecidableEq, Repr

/-- The writes performed after `await Promise.all(...)` settles: on
resolution the success label, on rejection (the `catch` branch) the error
label; either way the 2-second timeout then restores the label and re-enables
the button. -/
def joinEvents {α : Type} : Except JsError α → List RefreshEv
  | .ok _ => [.setBtn "✅ Refreshed!" true, .setBtn "🔄 Refresh Data" false]
  | .error _ => [.setBtn "❌ Error" true, .setBtn "🔄 Refresh Data" false]

/-- The event trace of one `refreshAllData()` call: timestamp, loading state,
then the three sub-fetch completions in an arbitrary arrival order `ord`
(the three fetches are started together and race), then the join writes. -/
def cycleEvents (fmtTime : Option String → String) (now : String)
    (o₁ : FetchOutcome StatsJson) (o₂ : FetchOutcome InsightsJson)
    (o₃ : FetchOutcome MessagesJson) (ord : List SubId) : List RefreshEv :=
  [.stamp now, .setBtn "🔄 Refreshing..." true] ++ ord.map .sub
    ++ joinEvents (promiseAll3 (fetchStatsJS o₁) (fetchInsightsJS o₂) (fetchMessagesJS fmtTime o₃))

/-- Apply one trace event to the DOM. -/
def evApply (fmtTime : Option String → String)
    (o₁ : FetchOutcome StatsJson) (o₂ : FetchOutcome InsightsJson)
    (o₃ : FetchOutcome MessagesJson) : RefreshEv → Dom → Dom
  | .stamp now, d => { d with lastUpdate := "Last updated: " ++ now }
  | .setBtn l b, d => { d with btnLabel := l, btnDisabled := b }
  | .sub .stats, d => statsUpdate o₁ d
  | .sub .insights, d => insightsUpdate o₂ d
  | .sub .msgs, d => messagesUpdate fmtTime o₃ d

/-- The DOM after one complete refresh cycle (including the trailing timeout
writes). -/
def runCycle (fmtTime : Option String → String) (now : String)
    (o₁ : FetchOutcome StatsJson) (o₂ : FetchOutcome InsightsJson)
    (o₃ : FetchOutcome MessagesJson) (ord : List SubId) (d : Dom) : Dom :=
  (cycleEvents fmtTime now o₁ o₂ o₃ ord).foldl
    (fun d' e => evApply fmtTime o₁ o₂ o₃ e d') d

/-- The predefined quick-reply query strings of `addPredefinedQueries`. -/
def predefinedQueries : List String :=
  ["What problems are teams facing right now?",
   "What are the most asked questions?",
   "What topics are trending in the chat?",
   "Summarize the current hackathon activity"]

/-- A concrete DOM state used by witnesses. -/
def domInit : Dom :=
  { lastUpdate := ""
    totalMessages := "0"
    uniqueUsers := "0"
    questionsCount := "0"
    problemsCount := "0"
    problemsInsight := ""
    questionsInsight := ""
    trendingInsight := ""
    trendsCount := "0"
    recentMessages := ""
    btnLabel := "🔄 Refresh Data"
    btnDisabled := false }

def isStatsSub : RefreshEv → Bool
  | .sub .stats => true
  | _ => false

def isInsightsSub : RefreshEv → Bool
  | .sub .insights => true
  | _ => false

def isMsgsSub : RefreshEv → Bool
  | .sub .msgs => true
  | _ => false

/-- A chat state with one submission pending. -/
def chatPending : ChatState :=
  { inputValue := ""
    inputDisabled := true
    sendDisabled := true
    transcript := [⟨Speaker.user, "What problems are teams facing right now?"⟩]
    loadingCount := 1
    inFlight := 1 }

/-! ## Word-run analysis of the highlighting passes

To reason about all inputs of the keyword-highlighting passes, a string is
decomposed into maximal runs of word characters (`Tok.word`) separated by
runs of non-word characters (`Tok.sep`).  A whole-word (`\b...\b`) match is
exactly a word run that equals the keyword up to case, so each highlighting
pass acts tokenwise on this decomposition. -/

inductive Tok
  | word (w : List Char)
  | sep (x : List Char)
deriving DecidableEq, Repr

def Tok.chars : Tok → List Char
  | .word w => w
  | .sep x => x

/-- Concatenate a token list back into a string. -/
def flatT (ts : List Tok) : List Char :=
  ts.flatMap Tok.chars

/-- The first token, if any, is not a word token. -/
def headNotWord : List Tok → Prop
  | Tok.word _ :: _ => False
  | _ => True

/-- Well-formed decomposition: tokens are non-empty, word tokens hold only
word characters, separator tokens hold none, and no word token directly
follows a word token (word runs are maximal). -/
def wfT : List Tok → Prop
  | [] => True
  | Tok.word w :: ts => w ≠ [] ∧ (∀ c ∈ w, isWordChar c = true) ∧ headNotWord ts ∧ wfT ts
  | Tok.sep x :: ts => x ≠ [] ∧ (∀ c ∈ x, isWordChar c = false) ∧ wfT ts

/-- Decompose a string into maximal word runs and separator runs. -/
def tokenize : List Char → List Tok
  | [] => []
  | c :: cs =>
    match tokenize cs with
    | Tok.word w :: ts =>
      if isWordChar c then Tok.word (c :: w) :: ts else Tok.sep [c] :: Tok.word w :: ts
    | Tok.sep x :: ts =>
      if isWordChar c then Tok.word [c] :: Tok.sep x :: ts else Tok.sep (c :: x) :: ts
    | [] => if isWordChar c then [Tok.word [c]] else [Tok.sep [c]]

/-- The lower-case ASCII letters; every keyword of the two highlight passes
consists of them. -/
def lowAlpha : List Char :=
  "abcdefghijklmnopqrstuvwxyz".toList

/-- A usable keyword: non-empty and all lower-case ASCII letters. -/
def kwOK (kw : List Char) : Prop :=
  kw ≠ [] ∧ ∀ c ∈ kw, c ∈ lowAlpha

/-- The token decomposition of the opening problem-highlight markup
`<span class="text-danger fw-bold">`. -/
def dangerOpenToks : List Tok :=
  [.sep "<".toList, .word "span".toList, .sep " ".toList, .word "class".toList,
   .sep "=\"".toList, .word "text".toList, .sep "-".toList, .word "danger".toList,
   .sep " ".toList, .word "fw".toList, .sep "-".toList, .word "bold".toList,
   .sep "\">".toList]

/-- The token decomposition of the opening question-highlight markup
`<span class="text-info fw-bold">`. -/
def infoOpenToks : List Tok :=
  [.sep "<".toList, .word "span".toList, .sep " ".toList, .word "class".toList,
   .sep "=\"".toList, .word "text".toList, .sep "-".toList, .word "info".toList,
   .sep " ".toList, .word "fw".toList, .sep "-".toList, .word "bold".toList,
   .sep "\">".toList]

/-- The token decomposition of the closing markup `</span>`. -/
def spanCloseToks : List Tok :=
  [.sep "</".toList, .word "span".toList, .sep ">".toList]

/-- One keyword pass acting on one token: a word run equal to the keyword up
to case is wrapped in the markup tokens, everything else is untouched. -/
def wrapT (kw : List Char) (preT postT : List Tok) : Tok → List Tok
  | .word w => if lcL w = kw then preT ++ [.word w] ++ postT else [.word w]
  | .sep x => [.sep x]

/-- The whole keyword list acting tokenwise, one keyword after the other in
array order. -/
def tokFold (kws : List (List Char)) (preT postT : List Tok) (ts : List Tok) : List Tok :=
  kws.foldl (fun acc kw => acc.flatMap (wrapT kw preT postT)) ts

/-- A keyword list acting on one token in a single sweep: a word run equal
(up to case) to some keyword of the list is wrapped once; nothing else
changes. -/
def wrapOnce (kws : List (List Char)) (preT postT : List Tok) : Tok → List Tok
  | .word w => if lcL w ∈ kws then preT ++ [.word w] ++ postT else [.word w]
  | .sep x => [.sep x]

/-- The combined effect of the three highlight passes on one token of the
input decomposition: a problem-keyword run is wrapped once in the danger
markup, a question-keyword run once in the info markup, any other word run is
untouched, and every question mark of a separator run is wrapped once in the
info markup.  This is the specification that claim C7 asserts of the three
sequential passes. -/
def renderTokHL : Tok → List Char
  | .word w =>
    if lcL w ∈ problemKeywords then dangerOpen ++ w ++ spanClose
    else if lcL w ∈ questionKeywords then infoOpen ++ w ++ spanClose
    else w
  | .sep x => qmPass x

def tokHasKw (kws : List (List Char)) : Tok → Bool
  | .word w => decide (lcL w ∈ kws)
  | .sep _ => false

/-- The last character of `u` if non-empty, otherwise the fallback `p`: the
"previously scanned character" after the scanner has passed over `u`. -/
def lastC : List Char → Option Char → Option Char
  | [], p => p
  | c :: cs, _ => lastC cs (some c)

/-- The character-level effect of one keyword pass on one token. -/
def wrapF (kw pre post : List Char) : Tok → List Char
  | .word w => if lcL w = kw then pre ++ w ++ post else w
  | .sep x => x

/-- The token-level effect of the problem pass followed by the question pass
on one token of the input decomposition. -/
def preRender : Tok → List Tok
  | .word w =>
    if lcL w ∈ problemKeywords then dangerOpenToks ++ [.word w] ++ spanCloseToks
    else if lcL w ∈ questionKeywords then infoOpenToks ++ [.word w] ++ spanCloseToks
    else [.word w]
  | .sep x => [.sep x]

/-- Word tokens of the markup fragments never match a keyword of `kws`. -/
def tokSafe (kws : List (List Char)) : Tok → Prop
  | .word w => lcL w ∉ kws
  | .sep _ => True

/-- The last token, if any, is a separator token. -/
def endsSep : List Tok → Prop
  | [] => False
  | [Tok.sep _] => True
  | [Tok.word _] => False
  | _ :: t :: ts => endsSep (t :: ts)

def headNotWord.dec : (ts : List Tok) → Decidable (headNotWord ts)
  | [] => isTrue trivial
  | Tok.word _ :: _ => isFalse (fun h => h)
  | Tok.sep _ :: _ => isTrue trivial

instance (ts : List Tok) : Decidable (headNotWord ts) :=
  headNotWord.dec ts

def wfT.dec : (ts : List Tok) → Decidable (wfT ts)
  | [] => isTrue trivial
  | Tok.word _ :: ts =>
    have := wfT.dec ts
    inferInstanceAs (Decidable (_ ∧ _ ∧ _ ∧ _))
  | Tok.sep _ :: ts =>
    have := wfT.dec ts
    inferInstanceAs (Decidable (_ ∧ _ ∧ _))

instance (ts : List Tok) : Decidable (wfT ts) :=
  wfT.dec ts

def endsSep.dec : (ts : List Tok) → Decidable (endsSep ts)
  | [] => isFalse (fun h => h)
  | [Tok.sep _] => isTrue trivial
  | [Tok.word _] => isFalse (fun h => h)
  | _ :: t :: ts =>
    match endsSep.dec (t :: ts) with
    | isTrue h => isTrue (by simpa [endsSep] using h)
    | isFalse h => isFalse (by simpa [endsSep] using h)

instance (ts : List Tok) : Decidable (endsSep ts) :=
  endsSep.dec ts

instance (kw : List Char) : Decidable (kwOK kw) :=
  inferInstanceAs (Decidable (_ ∧ _))

instance (kws : List (List Char)) : (t : Tok) → Decidable (tokSafe kws t)
  | Tok.word w => inferInstanceAs (Decidable (lcL w ∉ kws))
  | Tok.sep _ => isTrue trivial

/-- Does the text contain some keyword of the list as a whole word
(case-insensitively)? -/
def hasAnyKw (kws : List (List Char)) (t : List Char) : Bool :=
  (tokenize t).any (tokHasKw kws)

/-! ## Claims -/

/-- Claim C1, counterexample: with one submission already pending (input
disabled, one query fetch in flight), a click on a quick-reply button sets
`userInput.value` programmatically and calls `handleSend()` directly; nothing
rejects or queues it, so a second, overlapping query fetch starts
(`inFlight` reaches 2) and a second user turn is appended while the first is
unanswered.  This refutes "any further submission attempt — whether typed or
triggered through a quick-reply shortcut — is rejected or queued and never
starts an overlapping query fetch". -/
theorem C1_counterexample :
    (chatStep chatInit (.quickReply "What problems are teams facing right now?")).inputDisabled = true ∧
    (chatStep chatInit (.quickReply "What problems are teams facing right now?")).inFlight = 1 ∧
    (chatStep (chatStep chatInit (.quickReply "What problems are teams facing right now?"))
        (.quickReply "What are the most asked questions?")).inFlight = 2 := by
  decide

/-- Claim C1 as amended: only typed submission attempts are serialized.
While a submission is pending the send button and the input are disabled, so
a button click or an Enter keypress is a no-op (no turn appended, no fetch
started); a quick-reply button click, however, is not guarded and submits
unconditionally (see the counterexample). -/
theorem C1_typed_submissions_serialized (s : ChatState) :
    (s.sendDisabled = true → chatStep s .clickSend = s) ∧
    (s.inputDisabled = true → chatStep s .pressEnter = s) := by
  constructor <;> intro h <;> simp [chatStep, h]

/-- Witness for `C1_typed_submissions_serialized` at a concrete pending
state. -/
theorem C1_typed_submissions_serialized_witness :
    chatStep chatPending .clickSend = chatPending ∧
    chatStep chatPending .pressEnter = chatPending :=
  ⟨(C1_typed_submissions_serialized chatPending).1 rfl,
   (C1_typed_submissions_serialized chatPending).2 rfl⟩

/-- Claim C2, counterexample: for the message text "help me" the rendered
output starts with the inserted problem-keyword span, and the first literal
character after the leading markup tags is still the lower-case 'h' — the
capitalization transform upper-cased the string's first character '<' (a
no-op) instead of skipping the tags.  This refutes "the first literal
character after the tags is the one upper-cased". -/
theorem C2_counterexample :
    firstLiteral (renderText "help me".toList) = some 'h' ∧ ('h' : Char) ≠ 'H' := by
  decide

/-- Claim C2 as amended: the capitalization transform runs after all markup
insertion but does not skip markup tags — it upper-cases the first character
of the fully marked-up string, whatever it is.  When that character is a
literal it is upper-cased; when the text begins with an inserted tag the
transform upper-cases '<' (the identity), leaving the first literal character
unchanged. -/
theorem C2_capitalizes_first_raw_char (t : List Char) (c : Char) (r : List Char)
    (h : markupOut t = c :: r) : renderText t = c.toUpper :: r := by
  unfold renderText
  rw [h]
  rfl

/-- Witness for `C2_capitalizes_first_raw_char` on "help me": the marked-up
text starts with '<', and the rendered text is that same string with '<'
"upper-cased". -/
theorem C2_capitalizes_first_raw_char_witness :
    renderText "help me".toList
      = Char.toUpper '<' :: "span class=\"text-danger fw-bold\">help</span> me".toList :=
  C2_capitalizes_first_raw_char "help me".toList '<'
    "span class=\"text-danger fw-bold\">help</span> me".toList (by decide)

/-! ### Frame lemmas for the three sub-fetch updates -/

@[simp] lemma statsUpdate_recentMessages (o : FetchOutcome StatsJson) (d : Dom) :
    (statsUpdate o d).recentMessages = d.recentMessages := by cases o <;> rfl

@[simp] lemma statsUpdate_problemsInsight (o : FetchOutcome StatsJson) (d : Dom) :
    (statsUpdate o d).problemsInsight = d.problemsInsight := by cases o <;> rfl

@[simp] lemma statsUpdate_questionsInsight (o : FetchOutcome StatsJson) (d : Dom) :
    (statsUpdate o d).questionsInsight = d.questionsInsight := by cases o <;> rfl

@[simp] lemma statsUpdate_trendingInsight (o : FetchOutcome StatsJson) (d : Dom) :
    (statsUpdate o d).trendingInsight = d.trendingInsight := by cases o <;> rfl

@[simp] lemma statsUpdate_btnLabel (o : FetchOutcome StatsJson) (d : Dom) :
    (statsUpdate o d).btnLabel = d.btnLabel := by cases o <;> rfl

@[simp] lemma statsUpdate_btnDisabled (o : FetchOutcome StatsJson) (d : Dom) :
    (statsUpdate o d).btnDisabled = d.btnDisabled := by cases o <;> rfl

@[simp] lemma insightsUpdate_recentMessages (o : FetchOutcome InsightsJson) (d : Dom) :
    (insightsUpdate o d).recentMessages = d.recentMessages := by cases o <;> rfl

@[simp] lemma insightsUpdate_totalMessages (o : FetchOutcome InsightsJson) (d : Dom) :
    (insightsUpdate o d).totalMessages = d.totalMessages := by cases o <;> rfl

@[simp] lemma insightsUpdate_uniqueUsers (o : FetchOutcome InsightsJson) (d : Dom) :
    (insightsUpdate o d).uniqueUsers = d.uniqueUsers := by cases o <;> rfl

@[simp] lemma insightsUpdate_btnLabel (o : FetchOutcome InsightsJson) (d : Dom) :
    (insightsUpdate o d).btnLabel = d.btnLabel := by cases o <;> rfl

@[simp] lemma insightsUpdate_btnDisabled (o : FetchOutcome InsightsJson) (d : Dom) :
    (insightsUpdate o d).btnDisabled = d.btnDisabled := by cases o <;> rfl

@[simp] lemma messagesUpdate_totalMessages (f : Option String → String)
    (o : FetchOutcome MessagesJson) (d : Dom) :
    (messagesUpdate f o d).totalMessages = d.totalMessages := by
  cases o with
  | ok data => simp only [messagesUpdate]; split <;> rfl
  | fail e => rfl

@[simp] lemma messagesUpdate_uniqueUsers (f : Option String → String)
    (o : FetchOutcome MessagesJson) (d : Dom) :
    (messagesUpdate f o d).uniqueUsers = d.uniqueUsers := by
  cases o with
  | ok data => simp only [messagesUpdate]; split <;> rfl
  | fail e => rfl

@[simp] lemma messagesUpdate_problemsInsight (f : Option String → String)
    (o : FetchOutcome MessagesJson) (d : Dom) :
    (messagesUpdate f o d).problemsInsight = d.problemsInsight := by
  cases o with
  | ok data => simp only [messagesUpdate]; split <;> rfl
  | fail e => rfl

@[simp] lemma messagesUpdate_questionsInsight (f : Option String → String)
    (o : FetchOutcome MessagesJson) (d : Dom) :
    (messagesUpdate f o d).questionsInsight = d.questionsInsight := by
  cases o with
  | ok data => simp only [messagesUpdate]; split <;> rfl
  | fail e => rfl

@[simp] lemma messagesUpdate_trendingInsight (f : Option String → String)
    (o : FetchOutcome MessagesJson) (d : Dom) :
    (messagesUpdate f o d).trendingInsight = d.trendingInsight := by
  cases o with
  | ok data => simp only [messagesUpdate]; split <;> rfl
  | fail e => rfl

@[simp] lemma messagesUpdate_btnLabel (f : Option String → String)
    (o : FetchOutcome MessagesJson) (d : Dom) :
    (messagesUpdate f o d).btnLabel = d.btnLabel := by
  cases o with
  | ok data => simp only [messagesUpdate]; split <;> rfl
  | fail e => rfl

@[simp] lemma messagesUpdate_btnDisabled (f : Option String → String)
    (o : FetchOutcome MessagesJson) (d : Dom) :
    (messagesUpdate f o d).btnDisabled = d.btnDisabled := by
  cases o with
  | ok data => simp only [messagesUpdate]; split <;> rfl
  | fail e => rfl

/-- `fetchRecentMessages` overwrites its region wholesale: the value written
does not depend on the prior DOM state. -/
lemma messagesUpdate_recent_indep (f : Option String → String)
    (o : FetchOutcome MessagesJson) (d d' : Dom) :
    (messagesUpdate f o d).recentMessages = (messagesUpdate f o d').recentMessages := by
  cases o with
  | ok data => simp only [messagesUpdate]; split <;> rfl
  | fail e => rfl

lemma insightsUpdate_texts_indep (o : FetchOutcome InsightsJson) (d d' : Dom) :
    (insightsUpdate o d).problemsInsight = (insightsUpdate o d').problemsInsight ∧
    (insightsUpdate o d).questionsInsight = (insightsUpdate o d').questionsInsight ∧
    (insightsUpdate o d).trendingInsight = (insightsUpdate o d').trendingInsight := by
  cases o <;> exact ⟨rfl, rfl, rfl⟩

lemma statsUpdate_counts_indep (o : FetchOutcome StatsJson) (d d' : Dom) :
    (statsUpdate o d).totalMessages = (statsUpdate o d').totalMessages ∧
    (statsUpdate o d).uniqueUsers = (statsUpdate o d').uniqueUsers := by
  cases o <;> exact ⟨rfl, rfl⟩

/-- If no event of `evs` is a writer of the region projected by `f`, the fold
preserves `f`. -/
lemma foldl_proj_pres {α : Type} (f : Dom → α) (w : RefreshEv → Bool)
    (A : RefreshEv → Dom → Dom)
    (hA : ∀ ev d, w ev = false → f (A ev d) = f d) :
    ∀ (evs : List RefreshEv) (d : Dom), (∀ ev ∈ evs, w ev = false) →
      f (evs.foldl (fun x e => A e x) d) = f d := by
  intro evs
  induction evs with
  | nil => intro d _; rfl
  | cons e rest ih =>
    intro d h
    have h1 := h e (by simp)
    have h2 : ∀ ev ∈ rest, w ev = false := fun ev hev => h ev (by simp [hev])
    simpa [List.foldl_cons, hA e d h1] using ih (A e d) h2

/-- Region independence for a fold under two event semantics `A` and `B` that
agree on the projected region: non-writers preserve it on both sides and the
write performed by a writer is the same under `A` and `B`, regardless of the
incoming state.  If some writer occurs in the trace, the final region value
is the same on both sides. -/
lemma foldl_proj_indep {α : Type} (f : Dom → α) (w : RefreshEv → Bool)
    (A B : RefreshEv → Dom → Dom)
    (hA : ∀ ev d, w ev = false → f (A ev d) = f d)
    (hB : ∀ ev d, w ev = false → f (B ev d) = f d)
    (hset : ∀ ev d d', w ev = true → f (A ev d) = f (B ev d')) :
    ∀ (evs : List RefreshEv) (d d' : Dom), (∃ ev ∈ evs, w ev = true) →
      f (evs.foldl (fun x e => A e x) d) = f (evs.foldl (fun x e => B e x) d') := by
  intro evs
  induction evs with
  | nil => intro d d' h; exact absurd h (by simp)
  | cons e rest ih =>
    intro d d' h
    by_cases hrest : ∃ ev ∈ rest, w ev = true
    · simpa [List.foldl_cons] using ih (A e d) (B e d') hrest
    · have he : w e = true := by
        rcases h with ⟨ev, hev, hw⟩
        rcases List.mem_cons.mp hev with rfl | hmem
        · exact hw
        · exact absurd ⟨ev, hmem, hw⟩ hrest
      have hnone : ∀ ev ∈ rest, w ev = false := by
        intro ev hev
        by_contra hc
        exact hrest ⟨ev, hev, by simpa using hc⟩
      calc f ((e :: rest).foldl (fun x e => A e x) d)
          = f (A e d) := foldl_proj_pres f w A hA rest (A e d) hnone
        _ = f (B e d') := hset e d d' he
        _ = f ((e :: rest).foldl (fun x e => B e x) d') :=
            (foldl_proj_pres f w B hB rest (B e d') hnone).symm

/-- The trace of one refresh cycle, with the join resolved: since all three
sub-promises always resolve, the button completion writes come strictly after
every sub-fetch completion. -/
lemma cycleEvents_eq (fmtTime : Option String → String) (now : String)
    (o₁ : FetchOutcome StatsJson) (o₂ : FetchOutcome InsightsJson)
    (o₃ : FetchOutcome MessagesJson) (ord : List SubId) :
    cycleEvents fmtTime now o₁ o₂ o₃ ord
      = [.stamp now, .setBtn "🔄 Refreshing..." true] ++ ord.map .sub
        ++ [.setBtn "✅ Refreshed!" true, .setBtn "🔄 Refresh Data" false] := rfl

/-- Claim C4: on a well-formed stats response each of the four displayed
fields equals the corresponding response field rendered as a number, with 0
when the field is absent or null (`jsOrZero`); on any fetch failure — non-2xx
status, network throw or malformed body — all four stat fields render the
literal string "Error". -/
theorem C4_stats_display :
    (∀ (s : StatsJson) (d : Dom),
      statsUpdate (.ok s) d =
        { d with
          totalMessages := toString (jsOrZero s.total_messages)
          uniqueUsers := toString (jsOrZero s.unique_users)
          questionsCount := toString (jsOrZero s.questions_count)
          problemsCount := toString (jsOrZero s.problems_count) }) ∧
    (∀ (e : FetchFail) (d : Dom),
      statsUpdate (.fail e) d =
        { d with
          totalMessages := "Error"
          uniqueUsers := "Error"
          questionsCount := "Error"
          problemsCount := "Error" }) ∧
    jsOrZero none = 0 ∧ (∀ n : Nat, jsOrZero (some n) = n) :=
  ⟨fun _ _ => rfl, fun _ _ => rfl, rfl, fun _ => rfl⟩

/-- Claim C5: on page hidden the handler clears the interval timer and starts
no fetch; a timer tick with no armed timer starts no fetch cycle (so no
timer-driven cycle occurs while hidden, since nothing but the visible
transition re-arms); on page visible the handler re-arms the fixed 30000 ms
interval and performs exactly one immediate fetch cycle. -/
theorem C5_visibility_scheduling :
    (∀ s : Sched, schedStep s .hidden = (⟨none⟩, [])) ∧
    (schedStep ⟨none⟩ .tick = (⟨none⟩, [])) ∧
    (schedStep ⟨none⟩ .manualClick = (⟨none⟩, [SchedAct.cycle])) ∧
    (schedStep ⟨none⟩ .unload = (⟨none⟩, [])) ∧
    (∀ s : Sched, schedStep s .visible = (⟨some 30000⟩, [SchedAct.cycle])) :=
  ⟨fun _ => rfl, rfl, rfl, rfl, fun _ => rfl⟩

/-- Claim C3: one refresh cycle starts the three sub-fetches together (they
complete in an arbitrary arrival order `ord`) and the refresh-button
completion writes come only after all three sub-updates, whatever the
outcomes; every sub-fetch completes in the trace (no failure cancels the
others); a failed sub-fetch writes its error state only into its own DOM
region; and no sub-fetch outcome affects the final content of the other
sub-fetches' regions. -/
theorem C3_refresh_cycle_isolation (fmtTime : Option String → String) (now : String)
    (o₁ : FetchOutcome StatsJson) (o₂ : FetchOutcome InsightsJson)
    (o₃ : FetchOutcome MessagesJson) (ord : List SubId) (d : Dom)
    (hord : ord.Perm [SubId.stats, SubId.insights, SubId.msgs]) :
    cycleEvents fmtTime now o₁ o₂ o₃ ord
      = [.stamp now, .setBtn "🔄 Refreshing..." true] ++ ord.map .sub
        ++ [.setBtn "✅ Refreshed!" true, .setBtn "🔄 Refresh Data" false] ∧
    (∀ i : SubId, RefreshEv.sub i ∈ cycleEvents fmtTime now o₁ o₂ o₃ ord) ∧
    (∀ (e : FetchFail) (d' : Dom),
      statsUpdate (.fail e) d' =
        { d' with
          totalMessages := "Error", uniqueUsers := "Error"
          questionsCount := "Error", problemsCount := "Error" }) ∧
    (∀ (e : FetchFail) (d' : Dom),
      insightsUpdate (.fail e) d' =
        { d' with
          problemsInsight := "Error loading insights."
          questionsInsight := "Error loading insights."
          trendingInsight := "Error loading insights." }) ∧
    (∀ (e : FetchFail) (d' : Dom),
      messagesUpdate fmtTime (.fail e) d' = { d' with recentMessages := messagesErrorHtml }) ∧
    (∀ (o₁' : FetchOutcome StatsJson) (o₂' : FetchOutcome InsightsJson),
      (runCycle fmtTime now o₁' o₂' o₃ ord d).recentMessages
        = (runCycle fmtTime now o₁ o₂ o₃ ord d).recentMessages) ∧
    (∀ (o₁' : FetchOutcome StatsJson) (o₃' : FetchOutcome MessagesJson),
      (runCycle fmtTime now o₁' o₂ o₃' ord d).problemsInsight
          = (runCycle fmtTime now o₁ o₂ o₃ ord d).problemsInsight ∧
      (runCycle fmtTime now o₁' o₂ o₃' ord d).questionsInsight
          = (runCycle fmtTime now o₁ o₂ o₃ ord d).questionsInsight ∧
      (runCycle fmtTime now o₁' o₂ o₃' ord d).trendingInsight
          = (runCycle fmtTime now o₁ o₂ o₃ ord d).trendingInsight) ∧
    (∀ (o₂' : FetchOutcome InsightsJson) (o₃' : FetchOutcome MessagesJson),
      (runCycle fmtTime now o₁ o₂' o₃' ord d).totalMessages
          = (runCycle fmtTime now o₁ o₂ o₃ ord d).totalMessages ∧
      (runCycle fmtTime now o₁ o₂' o₃' ord d).uniqueUsers
          = (runCycle fmtTime now o₁ o₂ o₃ ord d).uniqueUsers) := by
  have hmem : ∀ i : SubId, i ∈ ord := fun i =>
    hord.mem_iff.mpr (by cases i <;> simp)
  have hsub : ∀ (f₁ : Option String → String) (n : String) (p₁ : FetchOutcome StatsJson)
      (p₂ : FetchOutcome InsightsJson) (p₃ : FetchOutcome MessagesJson) (i : SubId),
      RefreshEv.sub i ∈ cycleEvents f₁ n p₁ p₂ p₃ ord := by
    intro f₁ n p₁ p₂ p₃ i
    rw [cycleEvents_eq]
    simp only [List.mem_append, List.mem_map]
    exact Or.inl (Or.inr ⟨i, hmem i, rfl⟩)
  refine ⟨cycleEvents_eq .., fun i => hsub fmtTime now o₁ o₂ o₃ i,
    fun e d' => rfl, fun e d' => rfl, fun e d' => rfl, ?_, ?_, ?_⟩
  · intro o₁' o₂'
    unfold runCycle
    rw [cycleEvents_eq, cycleEvents_eq]
    refine foldl_proj_indep Dom.recentMessages isMsgsSub _ _ ?_ ?_ ?_ _ d d ?_
    · intro ev x h
      cases ev with
      | stamp n => rfl
      | setBtn l b => rfl
      | sub i => cases i <;> simp_all [isMsgsSub, evApply]
    · intro ev x h
      cases ev with
      | stamp n => rfl
      | setBtn l b => rfl
      | sub i => cases i <;> simp_all [isMsgsSub, evApply]
    · intro ev x x' h
      cases ev with
      | stamp n => simp [isMsgsSub] at h
      | setBtn l b => simp [isMsgsSub] at h
      | sub i =>
        cases i <;> simp_all [isMsgsSub]
        exact messagesUpdate_recent_indep fmtTime o₃ x x'
    · exact ⟨RefreshEv.sub .msgs, by
        simp only [List.mem_append, List.mem_map]
        exact Or.inl (Or.inr ⟨SubId.msgs, hmem SubId.msgs, rfl⟩), rfl⟩
  · intro o₁' o₃'
    refine ⟨?_, ?_, ?_⟩ <;>
    · unfold runCycle
      rw [cycleEvents_eq, cycleEvents_eq]
      refine foldl_proj_indep _ isInsightsSub _ _ ?_ ?_ ?_ _ d d ?_
      · intro ev x h
        cases ev with
        | stamp n => rfl
        | setBtn l b => rfl
        | sub i => cases i <;> simp_all [isInsightsSub, evApply]
      · intro ev x h
        cases ev with
        | stamp n => rfl
        | setBtn l b => rfl
        | sub i => cases i <;> simp_all [isInsightsSub, evApply]
      · intro ev x x' h
        cases ev with
        | stamp n => simp [isInsightsSub] at h
        | setBtn l b => simp [isInsightsSub] at h
        | sub i =>
          cases i <;> simp_all [isInsightsSub]
          first
          | exact (insightsUpdate_texts_indep o₂ x x').1
          | exact (insightsUpdate_texts_indep o₂ x x').2.1
          | exact (insightsUpdate_texts_indep o₂ x x').2.2
      · exact ⟨RefreshEv.sub .insights, by
          simp only [List.mem_append, List.mem_map]
          exact Or.inl (Or.inr ⟨SubId.insights, hmem SubId.insights, rfl⟩), rfl⟩
  · intro o₂' o₃'
    refine ⟨?_, ?_⟩ <;>
    · unfold runCycle
      rw [cycleEvents_eq, cycleEvents_eq]
      refine foldl_proj_indep _ isStatsSub _ _ ?_ ?_ ?_ _ d d ?_
      · intro ev x h
        cases ev with
        | stamp n => rfl
        | setBtn l b => rfl
        | sub i => cases i <;> simp_all [isStatsSub, evApply]
      · intro ev x h
        cases ev with
        | stamp n => rfl
        | setBtn l b => rfl
        | sub i => cases i <;> simp_all [isStatsSub, evApply]
      · intro ev x x' h
        cases ev with
        | stamp n => simp [isStatsSub] at h
        | setBtn l b => simp [isStatsSub] at h
        | sub i =>
          cases i <;> simp_all [isStatsSub]
          first
          | exact (statsUpdate_counts_indep o₁ x x').1
          | exact (statsUpdate_counts_indep o₁ x x').2
      · exact ⟨RefreshEv.sub .stats, by
          simp only [List.mem_append, List.mem_map]
          exact Or.inl (Or.inr ⟨SubId.stats, hmem SubId.stats, rfl⟩), rfl⟩

/-- Witness for `C3_refresh_cycle_isolation` at a concrete arrival order
(messages first, then stats, then insights) with the stats fetch failing. -/
theorem C3_refresh_cycle_isolation_witness :
    cycleEvents (fun _ => "12:00:00") "now" (.fail .networkThrow) (.ok ⟨none, none, none⟩)
        (.ok ⟨none⟩) [SubId.msgs, SubId.stats, SubId.insights]
      = [.stamp "now", .setBtn "🔄 Refreshing..." true,
         .sub SubId.msgs, .sub SubId.stats, .sub SubId.insights,
         .setBtn "✅ Refreshed!" true, .setBtn "🔄 Refresh Data" false] :=
  (C3_refresh_cycle_isolation (fun _ => "12:00:00") "now" (.fail .networkThrow)
    (.ok ⟨none, none, none⟩) (.ok ⟨none⟩) [SubId.msgs, SubId.stats, SubId.insights] domInit
    (by decide)).1

/-- Claim C8: a submission whose text is empty after trimming is a complete
no-op — `handleSend` returns before appending any turn, starting any fetch or
touching the controls — on the direct call and on both typed event paths. -/
theorem C8_blank_submission_noop (s : ChatState) (h : jsTrim s.inputValue = "") :
    handleSendStart s = s ∧ chatStep s .clickSend = s ∧ chatStep s .pressEnter = s := by
  have h1 : handleSendStart s = s := by simp [handleSendStart, h]
  refine ⟨h1, ?_, ?_⟩ <;> simp [chatStep, h1]

/-- Witness for `C8_blank_submission_noop` on a whitespace-only input. -/
theorem C8_blank_submission_noop_witness :
    handleSendStart { chatInit with inputValue := "   " } = { chatInit with inputValue := "   " } ∧
    chatStep { chatInit with inputValue := "   " } .clickSend = { chatInit with inputValue := "   " } ∧
    chatStep { chatInit with inputValue := "   " } .pressEnter = { chatInit with inputValue := "   " } :=
  C8_blank_submission_noop { chatInit with inputValue := "   " } (by decide)

/-- Claim C6: every fetch path enters its loading state before any network
result is applied and leaves it on every code path.  For the refresh cycle:
the disabled "Refreshing" button write precedes every sub-fetch completion in
the trace; both join branches (resolution and the exception `catch`) end with
the timeout write that restores the label and re-enables the button, and the
cycle's final DOM has the button enabled.  For the chat path: a non-empty
submission disables the controls and shows the loading indicator at the
moment the fetch starts, and every fetch resolution (the `finally` block)
re-enables both controls, whatever the state. -/
theorem C6_loading_always_released :
    (∀ (fmtTime : Option String → String) (now : String) (o₁ : FetchOutcome StatsJson)
        (o₂ : FetchOutcome InsightsJson) (o₃ : FetchOutcome MessagesJson) (ord : List SubId),
      (cycleEvents fmtTime now o₁ o₂ o₃ ord).take 2
        = [.stamp now, .setBtn "🔄 Refreshing..." true]) ∧
    (∀ r : Except JsError ((Dom → Dom) × (Dom → Dom) × (Dom → Dom)),
      (joinEvents r).getLast? = some (.setBtn "🔄 Refresh Data" false)) ∧
    (∀ (fmtTime : Option String → String) (now : String) (o₁ : FetchOutcome StatsJson)
        (o₂ : FetchOutcome InsightsJson) (o₃ : FetchOutcome MessagesJson)
        (ord : List SubId) (d : Dom),
      (runCycle fmtTime now o₁ o₂ o₃ ord d).btnDisabled = false ∧
      (runCycle fmtTime now o₁ o₂ o₃ ord d).btnLabel = "🔄 Refresh Data") ∧
    (∀ s : ChatState, jsTrim s.inputValue ≠ "" →
      (handleSendStart s).inputDisabled = true ∧
      (handleSendStart s).sendDisabled = true ∧
      (handleSendStart s).loadingCount = s.loadingCount + 1 ∧
      (handleSendStart s).inFlight = s.inFlight + 1) ∧
    (∀ (s : ChatState) (r : String),
      (chatStep s (.resolveReply r)).inputDisabled = false ∧
      (chatStep s (.resolveReply r)).sendDisabled = false ∧
      (chatStep s (.resolveReply r)).loadingCount = s.loadingCount - 1 ∧
      (chatStep s (.resolveReply r)).inFlight = s.inFlight - 1) := by
  refine ⟨fun _ _ _ _ _ _ => rfl, ?_, ?_, ?_, fun s r => ⟨rfl, rfl, rfl, rfl⟩⟩
  · intro r
    cases r <;> rfl
  · intro fmtTime now o₁ o₂ o₃ ord d
    constructor <;> simp [runCycle, cycleEvents_eq, List.foldl_append, evApply]
  · intro s h
    simp only [handleSendStart]
    rw [if_neg h]
    exact ⟨rfl, rfl, rfl, rfl⟩

/-- Witness for `C6_loading_always_released` on a concrete non-empty
submission. -/
theorem C6_loading_always_released_witness :
    (handleSendStart { chatInit with inputValue := "hello" }).inputDisabled = true ∧
    (handleSendStart { chatInit with inputValue := "hello" }).sendDisabled = true ∧
    (handleSendStart { chatInit with inputValue := "hello" }).loadingCount
        = { chatInit with inputValue := "hello" }.loadingCount + 1 ∧
    (handleSendStart { chatInit with inputValue := "hello" }).inFlight
        = { chatInit with inputValue := "hello" }.inFlight + 1 :=
  C6_loading_always_released.2.2.2.1 { chatInit with inputValue := "hello" } (by decide)

/-- Claim C9: the cycle-level error branch of `refreshAllData` is
unreachable.  Each sub-fetch catches all of its failures internally and its
promise resolves for every outcome, so `Promise.all` always resolves and the
button always shows "✅ Refreshed!" after the join — even when all three
sub-fetches failed. -/
theorem C9_cycle_error_branch_unreachable :
    (∀ (fmtTime : Option String → String) (o₁ : FetchOutcome StatsJson)
        (o₂ : FetchOutcome InsightsJson) (o₃ : FetchOutcome MessagesJson),
      promiseAll3 (fetchStatsJS o₁) (fetchInsightsJS o₂) (fetchMessagesJS fmtTime o₃)
        = Except.ok (statsUpdate o₁, insightsUpdate o₂, messagesUpdate fmtTime o₃)) ∧
    (∀ (fmtTime : Option String → String) (o₁ : FetchOutcome StatsJson)
        (o₂ : FetchOutcome InsightsJson) (o₃ : FetchOutcome MessagesJson),
      joinEvents (promiseAll3 (fetchStatsJS o₁) (fetchInsightsJS o₂) (fetchMessagesJS fmtTime o₃))
        = [RefreshEv.setBtn "✅ Refreshed!" true, RefreshEv.setBtn "🔄 Refresh Data" false]) :=
  ⟨fun _ _ _ _ => rfl, fun _ _ _ _ => rfl⟩

/-- Claim C10: a successful messages fetch whose list is empty or absent
replaces the recent-messages region wholesale with the placeholder paragraph;
no message entry is rendered and nothing of the previous content remains (the
result does not depend on the prior DOM state). -/
theorem C10_empty_messages_placeholder (fmtTime : Option String → String)
    (data : MessagesJson) (d : Dom) (h : data.messages.getD [] = []) :
    (messagesUpdate fmtTime (.ok data) d).recentMessages = noMessagesHtml := by
  simp [messagesUpdate, h]

/-- Witness for `C10_empty_messages_placeholder` with an absent list. -/
theorem C10_empty_messages_placeholder_witness :
    (messagesUpdate (fun _ => "12:00:00") (.ok ⟨none⟩) domInit).recentMessages = noMessagesHtml :=
  C10_empty_messages_placeholder (fun _ => "12:00:00") ⟨none⟩ domInit (by decide)

/-! ### Character facts -/

lemma low_not_upper {c : Char} (h : c ∈ lowAlpha) : c.isUpper = false := by
  fin_cases h <;> decide

lemma low_isWordChar {c : Char} (h : c ∈ lowAlpha) : isWordChar c = true := by
  fin_cases h <;> decide

lemma lc_low {c : Char} (h : c ∈ lowAlpha) : lc c = c := by
  simp [lc, low_not_upper h]

lemma lc_ne_of_not_word {d k : Char} (hd : isWordChar d = false) (hk : k ∈ lowAlpha) :
    lc d ≠ lc k := by
  rw [lc_low hk]
  intro he
  unfold lc at he
  by_cases hu : d.isUpper = true
  · have : isWordChar d = true := by
      simp [isWordChar, Char.isAlphanum, Char.isAlpha, hu]
    rw [this] at hd
    exact absurd hd (by simp)
  · rw [if_neg hu] at he
    subst he
    rw [low_isWordChar hk] at hd
    exact absurd hd (by simp)

lemma isWordChar_of_lc_eq_low {c k : Char} (hk : k ∈ lowAlpha) (h : lc c = lc k) :
    isWordChar c = true := by
  by_contra hc
  exact lc_ne_of_not_word (by simpa using hc) hk h

/-! ### Flattening and tokenization -/

@[simp] lemma flatT_nil : flatT [] = [] := rfl

@[simp] lemma flatT_cons (t : Tok) (ts : List Tok) :
    flatT (t :: ts) = t.chars ++ flatT ts := rfl

@[simp] lemma flatT_append (a b : List Tok) : flatT (a ++ b) = flatT a ++ flatT b :=
  List.flatMap_append a b _

lemma tokenize_cons_word {c : Char} {cs w : List Char} {ts : List Tok}
    (h : tokenize cs = Tok.word w :: ts) (hw : isWordChar c = true) :
    tokenize (c :: cs) = Tok.word (c :: w) :: ts := by
  simp [tokenize, h, hw]

lemma tokenize_cons_word_sep {c : Char} {cs w : List Char} {ts : List Tok}
    (h : tokenize cs = Tok.word w :: ts) (hw : isWordChar c = false) :
    tokenize (c :: cs) = Tok.sep [c] :: Tok.word w :: ts := by
  simp [tokenize, h, hw]

lemma tokenize_cons_sep_word {c : Char} {cs x : List Char} {ts : List Tok}
    (h : tokenize cs = Tok.sep x :: ts) (hw : isWordChar c = true) :
    tokenize (c :: cs) = Tok.word [c] :: Tok.sep x :: ts := by
  simp [tokenize, h, hw]

lemma tokenize_cons_sep {c : Char} {cs x : List Char} {ts : List Tok}
    (h : tokenize cs = Tok.sep x :: ts) (hw : isWordChar c = false) :
    tokenize (c :: cs) = Tok.sep (c :: x) :: ts := by
  simp [tokenize, h, hw]

lemma tokenize_cons_nil_word {c : Char} {cs : List Char}
    (h : tokenize cs = []) (hw : isWordChar c = true) :
    tokenize (c :: cs) = [Tok.word [c]] := by
  simp [tokenize, h, hw]

lemma tokenize_cons_nil_sep {c : Char} {cs : List Char}
    (h : tokenize cs = []) (hw : isWordChar c = false) :
    tokenize (c :: cs) = [Tok.sep [c]] := by
  simp [tokenize, h, hw]

lemma flatT_tokenize (l : List Char) : flatT (tokenize l) = l := by
  induction l with
  | nil => rfl
  | cons c cs ih =>
    rcases htk : tokenize cs with _ | ⟨t, ts⟩
    · rw [htk] at ih
      by_cases hw : isWordChar c
      · rw [tokenize_cons_nil_word htk hw]
        simp [Tok.chars, ← ih]
      · rw [tokenize_cons_nil_sep htk (by simpa using hw)]
        simp [Tok.chars, ← ih]
    · rw [htk] at ih
      cases t with
      | word w =>
        by_cases hw : isWordChar c
        · rw [tokenize_cons_word htk hw]
          simp_all [Tok.chars]
        · rw [tokenize_cons_word_sep htk (by simpa using hw)]
          simp_all [Tok.chars]
      | sep x =>
        by_cases hw : isWordChar c
        · rw [tokenize_cons_sep_word htk hw]
          simp_all [Tok.chars]
        · rw [tokenize_cons_sep htk (by simpa using hw)]
          simp_all [Tok.chars]

lemma wfT_tokenize (l : List Char) : wfT (tokenize l) := by
  induction l with
  | nil => trivial
  | cons c cs ih =>
    rcases htk : tokenize cs with _ | ⟨t, ts⟩
    · by_cases hw : isWordChar c
      · rw [tokenize_cons_nil_word htk hw]
        exact ⟨by simp, by intro a ha; simp at ha; subst ha; exact hw, trivial, trivial⟩
      · rw [tokenize_cons_nil_sep htk (by simpa using hw)]
        exact ⟨by simp, by intro a ha; simp at ha; subst ha; simpa using hw, trivial⟩
    · rw [htk] at ih
      cases t with
      | word w =>
        obtain ⟨hne, hall, hh, hwf⟩ := ih
        by_cases hw : isWordChar c
        · rw [tokenize_cons_word htk hw]
          refine ⟨by simp, ?_, hh, hwf⟩
          intro a ha
          rcases List.mem_cons.mp ha with rfl | ha
          · exact hw
          · exact hall a ha
        · rw [tokenize_cons_word_sep htk (by simpa using hw)]
          refine ⟨by simp, ?_, hne, hall, hh, hwf⟩
          intro a ha
          simp at ha
          subst ha
          simpa using hw
      | sep x =>
        obtain ⟨hne, hall, hwf⟩ := ih
        by_cases hw : isWordChar c
        · rw [tokenize_cons_sep_word htk hw]
          refine ⟨by simp, ?_, trivial, hne, hall, hwf⟩
          intro a ha
          simp at ha
          subst ha
          exact hw
        · rw [tokenize_cons_sep htk (by simpa using hw)]
          refine ⟨by simp, ?_, hwf⟩
          intro a ha
          rcases List.mem_cons.mp ha with rfl | ha
          · simpa using hw
          · exact hall a ha

/-! ### stripCI facts -/

lemma lcL_low {kw : List Char} (h : ∀ a ∈ kw, a ∈ lowAlpha) : lcL kw = kw := by
  induction kw with
  | nil => rfl
  | cons k ks ih =>
    simp only [lcL, List.map_cons]
    rw [lc_low (h k (by simp))]
    have := ih (fun a ha => h a (by simp [ha]))
    simp only [lcL] at this
    rw [this]

lemma stripCI_some {kw : List Char} :
    ∀ {s m r : List Char}, stripCI kw s = some (m, r) → s = m ++ r ∧ lcL m = lcL kw := by
  induction kw with
  | nil =>
    intro s m r h
    rw [show stripCI [] s = some ([], s) from rfl] at h
    simp only [Option.some.injEq, Prod.mk.injEq] at h
    obtain ⟨rfl, rfl⟩ := h
    exact ⟨rfl, rfl⟩
  | cons k ks ih =>
    intro s m r h
    cases s with
    | nil => simp [stripCI] at h
    | cons c cs =>
      by_cases hlc : lc c = lc k
      · rw [stripCI, if_pos hlc] at h
        cases hm : stripCI ks cs with
        | none => rw [hm] at h; simp at h
        | some p =>
          obtain ⟨m', r'⟩ := p
          rw [hm] at h
          simp only [Option.map_some', Option.some.injEq, Prod.mk.injEq] at h
          obtain ⟨rfl, rfl⟩ := h
          obtain ⟨he, hl⟩ := ih hm
          constructor
          · simp [he]
          · simp only [lcL, List.map_cons, hlc]
            simp only [lcL] at hl
            rw [hl]
      · rw [stripCI, if_neg hlc] at h
        simp at h

lemma stripCI_of_lcL {kw : List Char} :
    ∀ {w : List Char} (s : List Char), lcL w = lcL kw → stripCI kw (w ++ s) = some (w, s) := by
  induction kw with
  | nil =>
    intro w s h
    have hw : w = [] := by simpa [lcL] using h
    subst hw
    rfl
  | cons k ks ih =>
    intro w s h
    cases w with
    | nil => simp [lcL] at h
    | cons c cs =>
      simp only [lcL, List.map_cons, List.cons.injEq] at h
      obtain ⟨h1, h2⟩ := h
      simp only [List.cons_append, stripCI, if_pos h1, List.append_eq]
      rw [ih (s := s) (by simpa [lcL] using h2)]
      rfl

lemma stripCI_none_head {k c : Char} {ks s : List Char} (h : lc c ≠ lc k) :
    stripCI (k :: ks) (c :: s) = none := by
  simp [stripCI, h]

/-! ### Scanning lemmas for the highlight pass -/

lemma hlS_skip (k : Char) (ks pre post : List Char) :
    ∀ (u s : List Char) (p : Option Char),
      hlS k ks pre post u.length p (u ++ s) = hlS k ks pre post 0 (lastC u p) s := by
  intro u
  induction u with
  | nil => intro s p; rfl
  | cons c u' ih =>
    intro s p
    simp only [List.cons_append, List.length_cons, hlS, lastC]
    exact ih s (some c)

lemma prevOk_lastC_sep :
    ∀ (x : List Char) (p : Option Char), x ≠ [] → (∀ a ∈ x, isWordChar a = false) →
      prevOk (lastC x p) = true := by
  intro x
  induction x with
  | nil => intro p h; exact absurd rfl h
  | cons c x' ih =>
    intro p _ hall
    cases x' with
    | nil => simp [lastC, prevOk, hall c (by simp)]
    | cons d x'' =>
      rw [lastC]
      exact ih (some c) (by simp) (fun a ha => hall a (by simp [ha]))

lemma hlS_prevWord (k : Char) (ks pre post : List Char) :
    ∀ (u : List Char), (∀ a ∈ u, isWordChar a = true) →
    ∀ (wc : Char), isWordChar wc = true →
    ∀ s, hlS k ks pre post 0 (some wc) (u ++ s)
          = u ++ hlS k ks pre post 0 (lastC u (some wc)) s := by
  intro u
  induction u with
  | nil => intro _ wc _ s; rfl
  | cons c u' ih =>
    intro hall wc hwc s
    have hm : matchOK k ks (some wc) (c :: (u' ++ s)) = false := by
      simp [matchOK, prevOk, hwc]
    simp only [List.cons_append, hlS, List.append_eq, hm, Bool.false_eq_true, if_false, lastC]
    rw [ih (fun a ha => hall a (by simp [ha])) c (hall c (by simp)) s]

lemma hlS_sepSkip (k : Char) (ks pre post : List Char) (hk : k ∈ lowAlpha) :
    ∀ (x : List Char), (∀ a ∈ x, isWordChar a = false) →
    ∀ (p : Option Char) (s : List Char),
      hlS k ks pre post 0 p (x ++ s) = x ++ hlS k ks pre post 0 (lastC x p) s := by
  intro x
  induction x with
  | nil => intro _ p s; rfl
  | cons c x' ih =>
    intro hall p s
    have hnc : lc c ≠ lc k := lc_ne_of_not_word (hall c (by simp)) hk
    have hm : matchOK k ks p (c :: (x' ++ s)) = false := by
      simp [matchOK, stripCI_none_head hnc]
    simp only [List.cons_append, hlS, List.append_eq, hm, Bool.false_eq_true, if_false, lastC]
    rw [ih (fun a ha => hall a (by simp [ha])) (some c) s]

lemma hlS_match (k : Char) (ks pre post : List Char) (hkw : ∀ a ∈ k :: ks, a ∈ lowAlpha) :
    ∀ (w s : List Char) (p : Option Char),
      prevOk p = true → lcL w = k :: ks → nextOk s = true →
      hlS k ks pre post 0 p (w ++ s)
        = pre ++ w ++ post ++ hlS k ks pre post 0 (lastC w p) s := by
  intro w s p hp hw hs
  cases w with
  | nil => simp [lcL] at hw
  | cons c w' =>
    have hlckw : lcL (k :: ks) = k :: ks := lcL_low hkw
    have hstrip : stripCI (k :: ks) ((c :: w') ++ s) = some (c :: w', s) :=
      stripCI_of_lcL _ (by rw [hw, hlckw])
    have hm : matchOK k ks p (c :: (w' ++ s)) = true := by
      simp only [matchOK, ← List.cons_append, hstrip, hp]
      simpa using hs
    have hlen : w'.length = ks.length := by
      have := congrArg List.length hw
      simpa [lcL] using this
    have htake : List.take ks.length (w' ++ s) = w' := List.take_left' hlen
    have hskip : hlS k ks pre post ks.length (some c) (w' ++ s)
        = hlS k ks pre post 0 (lastC w' (some c)) s := by
      rw [← hlen]
      exact hlS_skip k ks pre post w' s (some c)
    simp only [List.cons_append, hlS, List.append_eq, hm, if_true, htake, hskip, lastC]

lemma hlS_wordSkip (k : Char) (ks pre post : List Char) (hkw : ∀ a ∈ k :: ks, a ∈ lowAlpha) :
    ∀ (w s : List Char) (p : Option Char),
      w ≠ [] → (∀ a ∈ w, isWordChar a = true) → lcL w ≠ k :: ks → nextOk s = true →
      hlS k ks pre post 0 p (w ++ s) = w ++ hlS k ks pre post 0 (lastC w p) s := by
  intro w s p hne hall hlcw hs
  cases w with
  | nil => exact absurd rfl hne
  | cons c w' =>
    have hlckw : lcL (k :: ks) = k :: ks := lcL_low hkw
    have hm : matchOK k ks p (c :: (w' ++ s)) = false := by
      rcases hsc : stripCI (k :: ks) (c :: (w' ++ s)) with _ | ⟨m, r⟩
      · simp [matchOK, hsc]
      · obtain ⟨heq, hlcm⟩ := stripCI_some hsc
        rw [hlckw] at hlcm
        have heq' : (c :: w') ++ s = m ++ r := by simpa using heq
        rcases Nat.lt_trichotomy m.length (c :: w').length with hlt | hleq | hgt
        · -- the match would end inside the word run: the next character is a
          -- word character, so the right boundary fails
          have hr : r = (c :: w').drop m.length ++ s := by
            have h2 := congrArg (List.drop m.length) heq'
            rw [List.drop_append_of_le_length (Nat.le_of_lt hlt), List.drop_left' rfl] at h2
            exact h2.symm
          have hdne : (c :: w').drop m.length ≠ [] := by
            intro hnil
            rw [List.drop_eq_nil_iff] at hnil
            omega
          rcases hd : (c :: w').drop m.length with _ | ⟨d, t⟩
          · exact absurd hd hdne
          · have hdw : isWordChar d = true := by
              refine hall d (List.drop_subset m.length (c :: w') ?_)
              rw [hd]
              simp
            have : nextOk r = false := by
              rw [hr, hd]
              simp [nextOk, hdw]
            simp [matchOK, hsc, this]
        · -- the match would be exactly the word run: its letters spell the
          -- keyword, contradicting the no-match hypothesis
          obtain ⟨hmw, -⟩ := List.append_inj heq'.symm hleq
          rw [hmw] at hlcm
          exact absurd hlcm hlcw
        · -- the match would extend past the word run: the separator character
          -- after the run would have to be a keyword letter
          have hsd : s = m.drop (c :: w').length ++ r := by
            have h2 := congrArg (List.drop (c :: w').length) heq'
            rwa [List.drop_left' rfl,
              List.drop_append_of_le_length (Nat.le_of_lt hgt)] at h2
          have hdne : m.drop (c :: w').length ≠ [] := by
            intro hnil
            rw [List.drop_eq_nil_iff] at hnil
            omega
          rcases hd : m.drop (c :: w').length with _ | ⟨d, u⟩
          · exact absurd hd hdne
          · have hdm : d ∈ m := by
              refine List.drop_subset (c :: w').length m ?_
              rw [hd]
              simp
            have : lc d ∈ k :: ks := by
              rw [← hlcm]
              exact List.mem_map_of_mem lc hdm
            obtain ⟨b, hb, hlb⟩ : ∃ b ∈ k :: ks, lc d = b := ⟨lc d, this, rfl⟩
            have hdw : isWordChar d = true :=
              isWordChar_of_lc_eq_low (hkw b hb) (by rw [hlb, lc_low (hkw b hb)])
            have : nextOk s = false := by
              rw [hsd, hd]
              simp [nextOk, hdw]
            rw [this] at hs
            exact absurd hs (by simp)
    simp only [List.cons_append, hlS, List.append_eq, hm, Bool.false_eq_true, if_false, lastC]
    rw [hlS_prevWord k ks pre post w' (fun a ha => hall a (by simp [ha])) c
      (hall c (by simp)) s]

lemma nextOk_flatT {ts : List Tok} (h : wfT ts) (hh : headNotWord ts) :
    nextOk (flatT ts) = true := by
  cases ts with
  | nil => rfl
  | cons t ts' =>
    cases t with
    | word w => exact absurd hh (by simp [headNotWord])
    | sep x =>
      obtain ⟨hne, hall, -⟩ := h
      cases x with
      | nil => exact absurd rfl hne
      | cons d x' =>
        simp only [flatT_cons, Tok.chars, List.cons_append, nextOk]
        simp [hall d (by simp)]

/-- The characterization of one keyword pass: on a well-formed decomposition
it wraps exactly the word runs that spell the keyword (up to case) and leaves
everything else unchanged. -/
lemma hlS_char (k : Char) (ks pre post : List Char) (hkw : ∀ a ∈ k :: ks, a ∈ lowAlpha) :
    ∀ (ts : List Tok), wfT ts → ∀ (p : Option Char), (prevOk p = true ∨ headNotWord ts) →
      hlS k ks pre post 0 p (flatT ts) = ts.flatMap (wrapF (k :: ks) pre post) := by
  intro ts
  induction ts with
  | nil => intro _ p _; rfl
  | cons t ts' ih =>
    intro hwf p hp
    cases t with
    | sep x =>
      obtain ⟨hne, hall, hwf'⟩ := hwf
      rw [flatT_cons, show (Tok.sep x).chars = x from rfl,
        hlS_sepSkip k ks pre post (hkw k (by simp)) x hall p (flatT ts'),
        ih hwf' (lastC x p) (Or.inl (prevOk_lastC_sep x p hne hall))]
      simp [wrapF]
    | word w =>
      obtain ⟨hne, hall, hh, hwf'⟩ := hwf
      have hp' : prevOk p = true := by
        rcases hp with hp | hp
        · exact hp
        · exact absurd hp (by simp [headNotWord])
      have hnext : nextOk (flatT ts') = true := nextOk_flatT hwf' hh
      rw [flatT_cons, show (Tok.word w).chars = w from rfl]
      by_cases hcase : lcL w = k :: ks
      · rw [hlS_match k ks pre post hkw w (flatT ts') p hp' hcase hnext,
          ih hwf' (lastC w p) (Or.inr hh)]
        simp [wrapF, hcase]
      · rw [hlS_wordSkip k ks pre post hkw w (flatT ts') p hne hall hcase hnext,
          ih hwf' (lastC w p) (Or.inr hh)]
        simp [wrapF, hcase]

/-! ### Well-formedness is preserved by a keyword pass -/

lemma endsSep_ne_nil {a : List Tok} (h : endsSep a) : a ≠ [] := by
  intro hnil
  subst hnil
  exact h

lemma headNotWord_append {a : List Tok} (b : List Tok)
    (ha : headNotWord a) (hne : a ≠ []) : headNotWord (a ++ b) := by
  cases a with
  | nil => exact absurd rfl hne
  | cons t a' =>
    cases t with
    | word w => exact absurd ha (by simp [headNotWord])
    | sep x => simp [headNotWord]

lemma endsSep_cons {t : Tok} {a : List Tok} (hne : a ≠ []) :
    endsSep (t :: a) ↔ endsSep a := by
  cases a with
  | nil => exact absurd rfl hne
  | cons u a' => simp [endsSep]

lemma wfT_append : ∀ {a : List Tok} (b : List Tok),
    wfT a → wfT b → (headNotWord b ∨ endsSep a) → wfT (a ++ b) := by
  intro a
  induction a with
  | nil => intro b _ hb _; simpa using hb
  | cons t a' ih =>
    intro b ha hb hcond
    cases t with
    | sep x =>
      obtain ⟨hne, hall, hwf'⟩ := ha
      refine ⟨hne, hall, ?_⟩
      cases a' with
      | nil => simpa using hb
      | cons t' a'' =>
        refine ih b hwf' hb ?_
        rcases hcond with h | h
        · exact Or.inl h
        · exact Or.inr ((endsSep_cons (by simp)).mp h)
    | word w =>
      obtain ⟨hne, hall, hh, hwf'⟩ := ha
      cases a' with
      | nil =>
        have hb' : headNotWord b := by
          rcases hcond with h | h
          · exact h
          · exact absurd h (by simp [endsSep])
        exact ⟨hne, hall, by simpa using hb', by simpa using hb⟩
      | cons t' a'' =>
        refine ⟨hne, hall, headNotWord_append b hh (by simp), ?_⟩
        refine ih b hwf' hb ?_
        rcases hcond with h | h
        · exact Or.inl h
        · exact Or.inr ((endsSep_cons (by simp)).mp h)

lemma headNotWord_flatMap_wrapT (kw : List Char) (preT postT : List Tok)
    {ts : List Tok} (h : headNotWord ts) :
    headNotWord (ts.flatMap (wrapT kw preT postT)) := by
  cases ts with
  | nil => trivial
  | cons t ts' =>
    cases t with
    | word w => exact absurd h (by simp [headNotWord])
    | sep x => simp [List.flatMap_cons, wrapT, headNotWord]

lemma wfT_flatMap_wrapT (kw : List Char) (preT postT : List Tok)
    (hpre : wfT preT) (hpost : wfT postT)
    (hpreh : headNotWord preT) (hpree : endsSep preT)
    (hposth : headNotWord postT) (hposte : endsSep postT) :
    ∀ ts, wfT ts → wfT (ts.flatMap (wrapT kw preT postT)) := by
  intro ts
  induction ts with
  | nil => intro _; trivial
  | cons t ts' ih =>
    intro hwf
    cases t with
    | sep x =>
      obtain ⟨hne, hall, hwf'⟩ := hwf
      simpa [List.flatMap_cons, wrapT] using
        (⟨hne, hall, ih hwf'⟩ : wfT (Tok.sep x :: ts'.flatMap (wrapT kw preT postT)))
    | word w =>
      obtain ⟨hne, hall, hh, hwf'⟩ := hwf
      have hR : wfT (ts'.flatMap (wrapT kw preT postT)) := ih hwf'
      have hRh : headNotWord (ts'.flatMap (wrapT kw preT postT)) :=
        headNotWord_flatMap_wrapT kw preT postT hh
      by_cases hc : lcL w = kw
      · have h1 : wfT (postT ++ ts'.flatMap (wrapT kw preT postT)) :=
          wfT_append _ hpost hR (Or.inr hposte)
        have h1h : headNotWord (postT ++ ts'.flatMap (wrapT kw preT postT)) :=
          headNotWord_append _ hposth (endsSep_ne_nil hposte)
        have h2 : wfT (Tok.word w :: (postT ++ ts'.flatMap (wrapT kw preT postT))) :=
          ⟨hne, hall, h1h, h1⟩
        have h3 := wfT_append (Tok.word w :: (postT ++ ts'.flatMap (wrapT kw preT postT)))
          hpre h2 (Or.inr hpree)
        simpa [List.flatMap_cons, wrapT, hc, List.append_assoc] using h3
      · simpa [List.flatMap_cons, wrapT, hc] using
          (⟨hne, hall, hRh, hR⟩ : wfT (Tok.word w :: ts'.flatMap (wrapT kw preT postT)))

lemma flatT_wrapT (kw : List Char) (preT postT : List Tok) (t : Tok) :
    flatT (wrapT kw preT postT t) = wrapF kw (flatT preT) (flatT postT) t := by
  cases t with
  | word w =>
    by_cases hc : lcL w = kw <;> simp [wrapT, wrapF, hc, Tok.chars]
  | sep x => simp [wrapT, wrapF, Tok.chars]

lemma flatT_flatMap_wrapT (kw : List Char) (preT postT : List Tok) (ts : List Tok) :
    flatT (ts.flatMap (wrapT kw preT postT))
      = ts.flatMap (wrapF kw (flatT preT) (flatT postT)) := by
  induction ts with
  | nil => rfl
  | cons t ts' ih => simp [List.flatMap_cons, flatT_wrapT, ih]

/-! ### Folding a keyword list over the string equals folding it over tokens -/

lemma hlPass_tokFold (preT postT : List Tok)
    (hpre : wfT preT) (hpost : wfT postT) (hpreh : headNotWord preT)
    (hpree : endsSep preT) (hposth : headNotWord postT) (hposte : endsSep postT) :
    ∀ (kws : List (List Char)), (∀ kw ∈ kws, kwOK kw) →
    ∀ ts, wfT ts →
      hlPass kws (flatT preT) (flatT postT) (flatT ts) = flatT (tokFold kws preT postT ts)
        ∧ wfT (tokFold kws preT postT ts) := by
  intro kws
  induction kws with
  | nil => intro _ ts hts; exact ⟨rfl, hts⟩
  | cons kw kws' ih =>
    intro hok ts hts
    obtain ⟨hkne, hklow⟩ := hok kw (by simp)
    cases kw with
    | nil => exact absurd rfl hkne
    | cons k ks =>
      have hrun : hlRun (k :: ks) (flatT preT) (flatT postT) (flatT ts)
          = flatT (ts.flatMap (wrapT (k :: ks) preT postT)) := by
        rw [show hlRun (k :: ks) (flatT preT) (flatT postT) (flatT ts)
            = hlS k ks (flatT preT) (flatT postT) 0 none (flatT ts) from rfl,
          hlS_char k ks (flatT preT) (flatT postT) hklow ts hts none (Or.inl rfl),
          flatT_flatMap_wrapT]
      have hwf1 : wfT (ts.flatMap (wrapT (k :: ks) preT postT)) :=
        wfT_flatMap_wrapT (k :: ks) preT postT hpre hpost hpreh hpree hposth hposte ts hts
      have hstep : hlPass ((k :: ks) :: kws') (flatT preT) (flatT postT) (flatT ts)
          = hlPass kws' (flatT preT) (flatT postT)
              (hlRun (k :: ks) (flatT preT) (flatT postT) (flatT ts)) := rfl
      rw [hstep, hrun,
        show tokFold ((k :: ks) :: kws') preT postT ts
          = tokFold kws' preT postT (ts.flatMap (wrapT (k :: ks) preT postT)) from rfl]
      exact ih (fun kw h => hok kw (by simp [h])) _ hwf1

/-! ### The token-level fold is a single sweep -/

lemma flatMap_ext {α β : Type} {f g : α → List β} (h : ∀ a, f a = g a) :
    ∀ l : List α, l.flatMap f = l.flatMap g := by
  intro l
  induction l with
  | nil => rfl
  | cons a l' ih => simp [List.flatMap_cons, h a, ih]

lemma flatMap_wrapOnce_id (kws : List (List Char)) (preT postT : List Tok) :
    ∀ {l : List Tok}, (∀ t ∈ l, tokSafe kws t) →
      l.flatMap (wrapOnce kws preT postT) = l := by
  intro l
  induction l with
  | nil => intro _; rfl
  | cons t l' ih =>
    intro h
    have ht := h t (by simp)
    have hrest := ih (fun u hu => h u (by simp [hu]))
    cases t with
    | word w =>
      have : lcL w ∉ kws := ht
      simp [List.flatMap_cons, wrapOnce, this, hrest]
    | sep x => simp [List.flatMap_cons, wrapOnce, hrest]

lemma wrapT_flatMap_wrapOnce (kw : List Char) (kws' : List (List Char))
    (preT postT : List Tok) (hnotin : kw ∉ kws')
    (hsafe : ∀ t ∈ preT ++ postT, tokSafe kws' t) (t : Tok) :
    (wrapT kw preT postT t).flatMap (wrapOnce kws' preT postT)
      = wrapOnce (kw :: kws') preT postT t := by
  have hsafe_pre : ∀ u ∈ preT, tokSafe kws' u := fun u hu => hsafe u (by simp [hu])
  have hsafe_post : ∀ u ∈ postT, tokSafe kws' u := fun u hu => hsafe u (by simp [hu])
  cases t with
  | sep x => simp [wrapT, wrapOnce, List.flatMap_singleton]
  | word w =>
    by_cases h1 : lcL w = kw
    · have hw : lcL w ∉ kws' := by rw [h1]; exact hnotin
      simp only [wrapT, if_pos h1, List.flatMap_append, List.flatMap_singleton,
        flatMap_wrapOnce_id kws' preT postT hsafe_pre,
        flatMap_wrapOnce_id kws' preT postT hsafe_post,
        wrapOnce, hw, if_neg hw]
      simp [wrapOnce, List.mem_cons, h1]
    · simp only [wrapT, if_neg h1, List.flatMap_singleton]
      by_cases h2 : lcL w ∈ kws' <;> simp [wrapOnce, List.mem_cons, h1, h2]

lemma tokFold_eq_wrapOnce (preT postT : List Tok) :
    ∀ (kws : List (List Char)), kws.Nodup → (∀ t ∈ preT ++ postT, tokSafe kws t) →
    ∀ ts, tokFold kws preT postT ts = ts.flatMap (wrapOnce kws preT postT) := by
  intro kws
  induction kws with
  | nil =>
    intro _ _ ts
    rw [show tokFold [] preT postT ts = ts from rfl]
    rw [flatMap_ext (g := fun t => [t]) ?he ts, List.flatMap_singleton']
    case he =>
      intro t
      cases t <;> simp [wrapOnce]
  | cons kw kws' ih =>
    intro hnd hsafe ts
    have hnotin : kw ∉ kws' := by
      rw [List.nodup_cons] at hnd
      exact hnd.1
    have hsafe' : ∀ t ∈ preT ++ postT, tokSafe kws' t := by
      intro t ht
      have := hsafe t ht
      cases t with
      | word w =>
        intro hc
        exact this (by simp [List.mem_cons, hc])
      | sep x => trivial
    rw [show tokFold (kw :: kws') preT postT ts
        = tokFold kws' preT postT (ts.flatMap (wrapT kw preT postT)) from rfl,
      ih (by rw [List.nodup_cons] at hnd; exact hnd.2) hsafe' _,
      List.flatMap_assoc]
    exact flatMap_ext
      (wrapT_flatMap_wrapOnce kw kws' preT postT hnotin hsafe') ts

/-! ### Combining the problem pass, the question pass and the question-mark pass -/

lemma wrapOnce_problem_question (t : Tok) :
    (wrapOnce problemKeywords dangerOpenToks spanCloseToks t).flatMap
        (wrapOnce questionKeywords infoOpenToks spanCloseToks)
      = preRender t := by
  cases t with
  | sep x => simp [wrapOnce, preRender, List.flatMap_singleton]
  | word w =>
    by_cases h1 : lcL w ∈ problemKeywords
    · have h2 : lcL w ∉ questionKeywords := by
        have hdisj : ∀ kw ∈ problemKeywords, kw ∉ questionKeywords := by decide
        exact hdisj _ h1
      have hsafe : ∀ u ∈ dangerOpenToks, tokSafe questionKeywords u := by decide
      have hsafec : ∀ u ∈ spanCloseToks, tokSafe questionKeywords u := by decide
      simp only [wrapOnce, if_pos h1, List.flatMap_append, List.flatMap_singleton,
        flatMap_wrapOnce_id questionKeywords infoOpenToks spanCloseToks hsafe,
        flatMap_wrapOnce_id questionKeywords infoOpenToks spanCloseToks hsafec,
        if_neg h2, preRender]
    · by_cases h2 : lcL w ∈ questionKeywords
      · simp [wrapOnce, h1, h2, preRender, List.flatMap_singleton]
      · simp [wrapOnce, h1, h2, preRender, List.flatMap_singleton]

lemma qmPass_append (a b : List Char) : qmPass (a ++ b) = qmPass a ++ qmPass b := by
  induction a with
  | nil => rfl
  | cons c a' ih => simp [qmPass, ih, List.append_assoc]

lemma qmPass_id_no_qm : ∀ {l : List Char}, (∀ c ∈ l, c ≠ '?') → qmPass l = l := by
  intro l
  induction l with
  | nil => intro _; rfl
  | cons c l' ih =>
    intro h
    have hc := h c (by simp)
    simp [qmPass, hc, ih (fun a ha => h a (by simp [ha]))]

lemma word_no_qm {w : List Char} (h : ∀ c ∈ w, isWordChar c = true) :
    ∀ c ∈ w, c ≠ '?' := by
  intro c hc he
  subst he
  have := h '?' hc
  exact absurd this (by decide)

lemma qmPass_flat_preRender : ∀ ts, wfT ts →
    qmPass (flatT (ts.flatMap preRender)) = ts.flatMap renderTokHL := by
  intro ts
  induction ts with
  | nil => intro _; rfl
  | cons t ts' ih =>
    intro hwf
    cases t with
    | sep x =>
      obtain ⟨hne, hall, hwf'⟩ := hwf
      simp only [List.flatMap_cons, flatT_append, qmPass_append, ih hwf']
      simp [preRender, renderTokHL, Tok.chars]
    | word w =>
      obtain ⟨hne, hall, hh, hwf'⟩ := hwf
      have hwq : qmPass w = w := qmPass_id_no_qm (word_no_qm hall)
      have hdq : qmPass dangerOpen = dangerOpen := qmPass_id_no_qm (by decide)
      have hiq : qmPass infoOpen = infoOpen := qmPass_id_no_qm (by decide)
      have hcq : qmPass spanClose = spanClose := qmPass_id_no_qm (by decide)
      have hfd : flatT dangerOpenToks = dangerOpen := by decide
      have hfi : flatT infoOpenToks = infoOpen := by decide
      have hfc : flatT spanCloseToks = spanClose := by decide
      simp only [List.flatMap_cons, flatT_append, qmPass_append, ih hwf']
      by_cases h1 : lcL w ∈ problemKeywords
      · simp [preRender, renderTokHL, h1, Tok.chars, hfd, hfc, qmPass_append,
          hdq, hcq, hwq]
      · by_cases h2 : lcL w ∈ questionKeywords
        · simp [preRender, renderTokHL, h1, h2, Tok.chars, hfi, hfc, qmPass_append,
            hiq, hcq, hwq]
        · simp [preRender, renderTokHL, h1, h2, Tok.chars, hwq]

/-! ### Concrete facts about the markup fragments and the keyword lists -/

lemma dangerOpenToks_flatT : flatT dangerOpenToks = dangerOpen := by decide

lemma infoOpenToks_flatT : flatT infoOpenToks = infoOpen := by decide

lemma spanCloseToks_flatT : flatT spanCloseToks = spanClose := by decide

lemma dangerOpenToks_wf : wfT dangerOpenToks ∧ headNotWord dangerOpenToks ∧ endsSep dangerOpenToks := by
  decide

lemma infoOpenToks_wf : wfT infoOpenToks ∧ headNotWord infoOpenToks ∧ endsSep infoOpenToks := by
  decide

lemma spanCloseToks_wf : wfT spanCloseToks ∧ headNotWord spanCloseToks ∧ endsSep spanCloseToks := by
  decide

lemma problemKeywords_ok : ∀ kw ∈ problemKeywords, kwOK kw := by decide

lemma questionKeywords_ok : ∀ kw ∈ questionKeywords, kwOK kw := by decide

lemma problemKeywords_nodup : problemKeywords.Nodup := by decide

lemma questionKeywords_nodup : questionKeywords.Nodup := by decide

lemma dangerToks_safe_problem : ∀ u ∈ dangerOpenToks ++ spanCloseToks, tokSafe problemKeywords u := by
  decide

lemma infoToks_safe_question : ∀ u ∈ infoOpenToks ++ spanCloseToks, tokSafe questionKeywords u := by
  decide

set_option maxHeartbeats 1600000 in
/-- Claim C7: for every input containing both a problem keyword and a
question keyword as whole words, running the three highlight passes in the
fixed order (problem keywords, then question keywords, then question marks)
on the cumulative output of the prior pass acts tokenwise on the word-run
decomposition of the input: every whole-word problem-keyword occurrence is
wrapped exactly once in its danger span, every whole-word question-keyword
occurrence exactly once in its info span, every question mark once in an info
span, and nothing else changes — in particular no pass rewraps or alters a
word already wrapped by an earlier pass. -/
theorem C7_highlight_passes_single_wrap (t : List Char)
    (hp : hasAnyKw problemKeywords t = true)
    (hq : hasAnyKw questionKeywords t = true) :
    highlightPasses t = (tokenize t).flatMap renderTokHL := by
  have hts : wfT (tokenize t) := wfT_tokenize t
  have hflat : flatT (tokenize t) = t := flatT_tokenize t
  have h1 := hlPass_tokFold dangerOpenToks spanCloseToks
    dangerOpenToks_wf.1 spanCloseToks_wf.1 dangerOpenToks_wf.2.1 dangerOpenToks_wf.2.2
    spanCloseToks_wf.2.1 spanCloseToks_wf.2.2
    problemKeywords problemKeywords_ok (tokenize t) hts
  have h1eq := h1.1
  have h2 := hlPass_tokFold infoOpenToks spanCloseToks
    infoOpenToks_wf.1 spanCloseToks_wf.1 infoOpenToks_wf.2.1 infoOpenToks_wf.2.2
    spanCloseToks_wf.2.1 spanCloseToks_wf.2.2
    questionKeywords questionKeywords_ok
    (tokFold problemKeywords dangerOpenToks spanCloseToks (tokenize t)) h1.2
  have h2eq := h2.1
  rw [dangerOpenToks_flatT, spanCloseToks_flatT, hflat] at h1eq
  rw [infoOpenToks_flatT, spanCloseToks_flatT] at h2eq
  have hto2 : tokFold questionKeywords infoOpenToks spanCloseToks
        (tokFold problemKeywords dangerOpenToks spanCloseToks (tokenize t))
      = (tokFold problemKeywords dangerOpenToks spanCloseToks (tokenize t)).flatMap
          (wrapOnce questionKeywords infoOpenToks spanCloseToks) :=
    tokFold_eq_wrapOnce infoOpenToks spanCloseToks questionKeywords
      questionKeywords_nodup infoToks_safe_question _
  have hto1 : tokFold problemKeywords dangerOpenToks spanCloseToks (tokenize t)
      = (tokenize t).flatMap (wrapOnce problemKeywords dangerOpenToks spanCloseToks) :=
    tokFold_eq_wrapOnce dangerOpenToks spanCloseToks problemKeywords
      problemKeywords_nodup dangerToks_safe_problem (tokenize t)
  have hcomp : tokFold questionKeywords infoOpenToks spanCloseToks
        (tokFold problemKeywords dangerOpenToks spanCloseToks (tokenize t))
      = (tokenize t).flatMap preRender := by
    rw [hto2, hto1, List.flatMap_assoc]
    exact flatMap_ext wrapOnce_problem_question (tokenize t)
  show qmPass (hlPass questionKeywords infoOpen spanClose
      (hlPass problemKeywords dangerOpen spanClose t)) = _
  rw [h1eq, h2eq, hcomp]
  exact qmPass_flat_preRender (tokenize t) hts

/-- Witness for `C7_highlight_passes_single_wrap` on "can you help": the
question keyword "can" and the problem keyword "help" are each wrapped
exactly once and nothing else changes. -/
theorem C7_highlight_passes_single_wrap_witness :
    highlightPasses "can you help".toList
      = (tokenize "can you help".toList).flatMap renderTokHL :=
  C7_highlight_passes_single_wrap "can you help".toList (by decide) (by decide)

end SlackDash
